import Mathlib

/-!
Verification of the ticketed-lock sequencing engine (src/raw.rs and the
wrapper in src/lib.rs).

The embedding makes the reference-counting that drives the Rust code
explicit: a heap holds every Link, every Seal and every Legacy registry
cell ever allocated, each Arc-managed object carries its strong count,
and dropping an Arc reference is a heap operation that fires the Rust
Drop code when the count reaches zero.

Correspondence with the source:
  * Link        <-> struct Link { cond_var, mutex: Mutex<bool>, index }
                    (the condition variable has no state beyond the flag;
                    the mutex-guarded bool is the released flag)
  * Seal        <-> struct Seal { link: Arc<Link> } behind Arc<Seal>;
                    the strong field is the Arc<Seal> strong count
  * Legacy      <-> Arc<Mutex<Vec<Arc<Seal>>>>; seals lists the Vec
                    contents (seal ids), strong is the Arc strong count
  * Heap.decSeal    <-> dropping one Arc<Seal>; at count zero it runs
                        Seal::drop, which sets the flag and notifies
  * Heap.decLegacy  <-> dropping one Arc<Mutex<Legacy>>; at count zero
                        the Vec is dropped, dropping its Arc<Seal>s
  * TicketedLock.issue / write / read / flush are line-by-line
    translations of the corresponding methods of raw::TicketedLock
  * Ticket.check    <-> the flag test performed by Ticket::wait (wait
                        blocks until check succeeds and then returns the
                        guard that check yields)
-/

/-! Pointwise descriptions of the elementary heap operations. -/

/-! Characterisation of the Vec::retain fold inside issue. -/

namespace TicketLock

/-- Replace the element at position i of a list by f applied to it;
out-of-range indices leave the list unchanged. -/
def updateAt (xs : List α) (i : Nat) (f : α → α) : List α :=
  match xs, i with
  | [], _ => []
  | x :: rest, 0 => f x :: rest
  | x :: rest, n + 1 => x :: updateAt rest n f

/-- Mirror of struct Link: the released flag (the Mutex<bool> content)
and the sequence index. -/
structure Link where
  released : Bool
  index : Nat
deriving DecidableEq

/-- Mirror of Arc<Seal>: the id of the Link it will release and the
current Arc strong count. -/
structure Seal where
  link : Nat
  strong : Nat
deriving DecidableEq

/-- Mirror of Arc<Mutex<Legacy>> where Legacy = Vec<Arc<Seal>>: the seal
ids currently in the Vec and the Arc strong count of the cell. -/
structure Legacy where
  seals : List Nat
  strong : Nat
deriving DecidableEq

/-- All Arc-managed objects the program has allocated, indexed by
allocation order. -/
structure Heap where
  links : List Link
  seals : List Seal
  legacies : List Legacy
deriving DecidableEq

/-- The empty heap: nothing allocated yet. -/
def Heap.empty : Heap := { links := [], seals := [], legacies := [] }

/-- Drop one Arc<Seal> reference to seal sid.  When the count reaches
zero the Rust Seal::drop body runs: it sets the linked Link's flag to
true and notifies all waiters (src/raw.rs lines 24-29). -/
def Heap.decSeal (h : Heap) (sid : Nat) : Heap :=
  match h.seals[sid]? with
  | none => h
  | some s =>
    let h2 : Heap :=
      { h with seals := updateAt h.seals sid (fun t => { t with strong := t.strong - 1 }) }
    if s.strong = 1 then
      { h2 with links := updateAt h2.links s.link (fun lk => { lk with released := true }) }
    else h2

/-- Drop one Arc<Mutex<Legacy>> reference to legacy lid.  When the count
reaches zero the Vec<Arc<Seal>> is dropped, which drops each contained
Arc<Seal> in order. -/
def Heap.decLegacy (h : Heap) (lid : Nat) : Heap :=
  match h.legacies[lid]? with
  | none => h
  | some L =>
    let h2 : Heap :=
      { h with legacies := updateAt h.legacies lid (fun t => { t with strong := t.strong - 1 }) }
    if L.strong = 1 then L.seals.foldl Heap.decSeal h2
    else h2

/-- Weak::upgrade on the sequencer's weak reference to legacy lid
succeeds exactly when the cell still has a strong owner. -/
def Heap.legacyLive (h : Heap) (lid : Nat) : Bool :=
  match h.legacies[lid]? with
  | some L => decide (L.strong ≠ 0)
  | none => false

/-- leg.lock().unwrap().push(seal.clone()): append seal sid to the Vec
of legacy lid and bump the seal's strong count by one. -/
def Heap.pushSeal (h : Heap) (lid sid : Nat) : Heap :=
  let h2 : Heap :=
    { h with legacies := updateAt h.legacies lid (fun L => { L with seals := L.seals ++ [sid] }) }
  { h2 with seals := updateAt h2.seals sid (fun s => { s with strong := s.strong + 1 }) }

/-- The access marker of a ticket: pub type Read = (); pub struct Write. -/
inductive Access where
  | readAccess
  | writeAccess
deriving DecidableEq

/-- Mirror of Ticket<A>: ids of the Arc<Link> and Arc<Mutex<Legacy>> the
ticket holds, plus the access marker. -/
structure Ticket where
  link : Nat
  legacy : Nat
  access : Access
deriving DecidableEq

/-- Mirror of LockGuard: it retains the ticket's legacy registry. -/
structure LockGuard where
  legacy : Nat
deriving DecidableEq

/-- Ticket::clone (derived): the clone shares the Link and the Legacy
registry; the legacy cell gains one strong owner.  (The Arc<Link> count
also grows, but Link has no Drop code, so that count is not modelled.) -/
def Ticket.clone (h : Heap) (t : Ticket) : Heap × Ticket :=
  ({ h with legacies := updateAt h.legacies t.legacy (fun L => { L with strong := L.strong + 1 }) }, t)

/-- Dropping a ticket without waiting releases its Arc<Mutex<Legacy>>
reference (the Arc<Link> drop has no observable effect). -/
def Ticket.drop (h : Heap) (t : Ticket) : Heap := h.decLegacy t.legacy

/-- Dropping a guard releases the Arc<Mutex<Legacy>> it retained. -/
def LockGuard.drop (h : Heap) (g : LockGuard) : Heap := h.decLegacy g.legacy

/-- The flag test at the heart of Ticket::wait (src/raw.rs lines 48-60):
if the ticket's own Link flag is true the wait loop exits and the ticket
is transformed into a guard holding the same legacy registry; otherwise
the calling thread stays blocked (modelled as none).  This is also the
body of the non-blocking check used by the futures adapter. -/
def Ticket.check (h : Heap) (t : Ticket) : Option LockGuard :=
  match h.links[t.link]? with
  | some lk => if lk.released then some { legacy := t.legacy } else none
  | none => none

namespace Raw

/-- Mirror of raw::TicketedLock: the monotonic counter, the Vec of weak
legacy references (ids; liveness is read off the heap) and the read
coalescing cache. -/
structure TicketedLock where
  next_index : Nat
  legacies : List Nat
  last_read : Option Ticket
deriving DecidableEq

/-- TicketedLock::new. -/
def TicketedLock.new : TicketedLock :=
  { next_index := 0, legacies := [], last_read := none }

/-- One step of the Vec::retain closure in issue: upgrade the weak
reference; on success push a clone of the new seal into that legacy and
keep the entry, otherwise remove the entry. -/
def retainStep (sid : Nat) (acc : Heap × List Nat) (lid : Nat) : Heap × List Nat :=
  if acc.1.legacyLive lid then (acc.1.pushSeal lid sid, acc.2 ++ [lid])
  else (acc.1, acc.2)

/-- TicketedLock::issue (src/raw.rs lines 78-104): bump the counter,
allocate a fresh Link (flag false), allocate a fresh Seal on that link
(the local Arc is the first strong reference), push a clone of the seal
into every still-live predecessor legacy while pruning dead entries,
allocate a fresh empty legacy cell (its one strong reference goes to
the ticket), register it weakly, and drop the local seal reference when
the routine returns.  Returns the new heap, the updated lock, the new
link id and the new legacy id. -/
def TicketedLock.issue (h : Heap) (l : TicketedLock) : Heap × TicketedLock × Nat × Nat :=
  let idx := l.next_index + 1
  let linkId := h.links.length
  let h1 : Heap := { h with links := h.links ++ [{ released := false, index := idx }] }
  let sid := h1.seals.length
  let h2 : Heap := { h1 with seals := h1.seals ++ [{ link := linkId, strong := 1 }] }
  let fold := l.legacies.foldl (retainStep sid) (h2, [])
  let legacyId := fold.1.legacies.length
  let h3 : Heap := { fold.1 with legacies := fold.1.legacies ++ [{ seals := [], strong := 1 }] }
  let l2 : TicketedLock :=
    { next_index := idx, legacies := fold.2 ++ [legacyId], last_read := l.last_read }
  (h3.decSeal sid, l2, linkId, legacyId)

/-- TicketedLock::write (src/raw.rs lines 106-115): clear the read
cache (dropping any cached ticket), issue, and wrap the result as a
write ticket. -/
def TicketedLock.write (h : Heap) (l : TicketedLock) : Heap × TicketedLock × Ticket :=
  let h0 := match l.last_read with
    | some t => Ticket.drop h t
    | none => h
  let l0 : TicketedLock := { l with last_read := none }
  let r := TicketedLock.issue h0 l0
  (r.1, r.2.1, { link := r.2.2.1, legacy := r.2.2.2, access := Access.writeAccess })

/-- TicketedLock::read (src/raw.rs lines 117-130): if the cache holds a
ticket, return a clone of it; otherwise issue a fresh ordering point and
return it as a read ticket.  Note the source never writes to last_read
here. -/
def TicketedLock.read (h : Heap) (l : TicketedLock) : Heap × TicketedLock × Ticket :=
  match l.last_read with
  | some t =>
    let c := Ticket.clone h t
    (c.1, l, c.2)
  | none =>
    let r := TicketedLock.issue h l
    (r.1, r.2.1, { link := r.2.2.1, legacy := r.2.2.2, access := Access.readAccess })

/-- TicketedLock::flush (src/raw.rs lines 132-134): the body is only a
TODO comment, so the operation does nothing. -/
def TicketedLock.flush (h : Heap) (l : TicketedLock) : Heap × TicketedLock := (h, l)

end Raw

/-- Lifecycle stage of one issued ticket: still held unwaited, waited
on (guard alive), or gone (abandoned, or guard dropped). -/
inductive Status where
  | pending
  | active
  | dead
deriving DecidableEq

/-- Numeric rank of a status, used to state that the lifecycle only
moves forward. -/
def statusRank : Status → Nat
  | Status.pending => 0
  | Status.active => 1
  | Status.dead => 2

/-- Global state of a program using one raw TicketedLock: the heap, the
lock, and every ticket ever issued (in issuance order) with its stage. -/
structure Sys where
  heap : Heap
  lock : Raw.TicketedLock
  tickets : List (Ticket × Status)
deriving DecidableEq

/-- The atomic events threads can perform against the lock.  Issuance
happens on the owning thread; dropping, waiting and guard-dropping may
happen on any thread, so a trace is an arbitrary interleaving of these
events.  Each event is atomic because the touched state is protected by
the Link mutex or the Legacy mutex in the source. -/
inductive Action where
  | issueRead
  | issueWrite
  | dropTicket (i : Nat)
  | waitTicket (i : Nat)
  | dropGuard (i : Nat)
deriving DecidableEq

/-- The initial state: fresh lock, nothing allocated, no tickets. -/
def Sys.init : Sys :=
  { heap := Heap.empty, lock := Raw.TicketedLock.new, tickets := [] }

/-- One atomic event.  A waitTicket event is the moment a blocked
Ticket::wait observes the released flag and returns; while the flag is
false the event does nothing (the thread stays blocked), which makes
every list of actions a valid interleaving. -/
def step (s : Sys) : Action → Sys
  | Action.issueRead =>
    let r := Raw.TicketedLock.read s.heap s.lock
    { heap := r.1, lock := r.2.1, tickets := s.tickets ++ [(r.2.2, Status.pending)] }
  | Action.issueWrite =>
    let r := Raw.TicketedLock.write s.heap s.lock
    { heap := r.1, lock := r.2.1, tickets := s.tickets ++ [(r.2.2, Status.pending)] }
  | Action.dropTicket i =>
    match s.tickets[i]? with
    | some (t, Status.pending) =>
      { s with heap := Ticket.drop s.heap t,
               tickets := updateAt s.tickets i (fun p => (p.1, Status.dead)) }
    | _ => s
  | Action.waitTicket i =>
    match s.tickets[i]? with
    | some (t, Status.pending) =>
      match Ticket.check s.heap t with
      | some _ => { s with tickets := updateAt s.tickets i (fun p => (p.1, Status.active)) }
      | none => s
    | _ => s
  | Action.dropGuard i =>
    match s.tickets[i]? with
    | some (t, Status.active) =>
      { s with heap := LockGuard.drop s.heap { legacy := t.legacy },
               tickets := updateAt s.tickets i (fun p => (p.1, Status.dead)) }
    | _ => s

/-- The state reached by running a trace from the initial state. -/
def run (tr : List Action) : Sys := tr.foldl step Sys.init

/-- Scenario for the read-coalescing claims: a first read on a fresh
lock. -/
def readTwice1 : Heap × Raw.TicketedLock × Ticket :=
  Raw.TicketedLock.read Heap.empty Raw.TicketedLock.new

/-- Scenario continued: an immediately following second read. -/
def readTwice2 : Heap × Raw.TicketedLock × Ticket :=
  Raw.TicketedLock.read readTwice1.1 readTwice1.2.1

/-- Issue a write ticket and immediately drop it without waiting. -/
def issueDropCycle (p : Heap × Raw.TicketedLock) : Heap × Raw.TicketedLock :=
  let r := Raw.TicketedLock.write p.1 p.2
  (Ticket.drop r.1 r.2.2, r.2.1)

/-- n issue-and-immediately-drop cycles starting from a fresh lock. -/
def issueDropCycles : Nat → Heap × Raw.TicketedLock
  | 0 => (Heap.empty, Raw.TicketedLock.new)
  | n + 1 => issueDropCycle (issueDropCycles n)

namespace Lib

/-- Mirror of the typed wrapper TicketedLock<T> of src/lib.rs: the raw
lock plus the payload Arc<UnsafeCell<T>>.  dataStrong is the strong
count of that Arc: 1 for the lock's own reference, plus one per
outstanding ticket or guard (each holds data.clone()). -/
structure TicketedLock (α : Type) where
  inner : Raw.TicketedLock
  dataStrong : Nat
  data : α
deriving DecidableEq

/-- TicketedLock::new (src/lib.rs lines 163-168). -/
def TicketedLock.new (a : α) : TicketedLock α :=
  { inner := Raw.TicketedLock.new, dataStrong := 1, data := a }

/-- TicketedLock::read (src/lib.rs lines 180-185): the returned
ReadTicket carries self.data.clone(), so the payload Arc gains one
strong reference. -/
def TicketedLock.read (h : Heap) (lk : TicketedLock α) :
    Heap × TicketedLock α × Ticket :=
  let r := Raw.TicketedLock.read h lk.inner
  (r.1, { lk with inner := r.2.1, dataStrong := lk.dataStrong + 1 }, r.2.2)

/-- TicketedLock::write (src/lib.rs lines 188-193): likewise clones the
payload Arc into the ticket. -/
def TicketedLock.write (h : Heap) (lk : TicketedLock α) :
    Heap × TicketedLock α × Ticket :=
  let r := Raw.TicketedLock.write h lk.inner
  (r.1, { lk with inner := r.2.1, dataStrong := lk.dataStrong + 1 }, r.2.2)

/-- Outcome of TicketedLock::unlock: either the extracted payload, or
the panic raised on the Err branch of Arc::try_unwrap (the source
message is: All the locks are supposed to be done after flush()). -/
inductive UnlockResult (α : Type) where
  | ok (a : α)
  | panicked
deriving DecidableEq

/-- TicketedLock::unlock (src/lib.rs lines 171-177): run flush (a
no-op), then Arc::try_unwrap(self.data), which succeeds exactly when
the lock's own reference is the only strong reference left; the Err
branch panics rather than returning an error value. -/
def TicketedLock.unlock (h : Heap) (lk : TicketedLock α) : UnlockResult α :=
  let _f := Raw.TicketedLock.flush h lk.inner
  if lk.dataStrong = 1 then UnlockResult.ok lk.data
  else UnlockResult.panicked

end Lib

/-- True when dropping one reference of seal sid would release link j:
the seal exists, points at j, and this is its last reference. -/
def Heap.sealKills (h : Heap) (sid j : Nat) : Bool :=
  match h.seals[sid]? with
  | some s => s.link == j && s.strong == 1
  | none => false

/-- Drop a list of Arc<Seal> references in order: the effect of dropping
the Vec<Arc<Seal>> held by a dying legacy cell. -/
def Heap.decSeals (h : Heap) (ids : List Nat) : Heap := ids.foldl Heap.decSeal h

/-- Number of predecessor registries still live at issuance time; each
of them receives one clone of the new seal. -/
def liveCount (h : Heap) (l : Raw.TicketedLock) : Nat :=
  (l.legacies.filter (fun id => h.legacyLive id)).length

/-- The global well-formedness invariant tying together the heap, the
sequencer and the ledger of issued tickets.  Writing n for the number of
issued tickets: ticket j (0-based issuance order) owns link j, seal j
and legacy j; a live legacy j holds exactly the seals of the tickets
issued after it; a seal's count equals the number of live predecessor
registries; and a link is released exactly when its seal count hit
zero. -/
structure SysInv (s : Sys) : Prop where
  linksLen : s.heap.links.length = s.tickets.length
  sealsLen : s.heap.seals.length = s.tickets.length
  legsLen : s.heap.legacies.length = s.tickets.length
  nextIdx : s.lock.next_index = s.tickets.length
  lastRead : s.lock.last_read = none
  tickIds : ∀ (j : Nat) (p : Ticket × Status), s.tickets[j]? = some p → p.1.link = j ∧ p.1.legacy = j
  sealLink : ∀ (j : Nat) (so : Seal), s.heap.seals[j]? = some so → so.link = j
  legStrongStatus : ∀ (j : Nat) (p : Ticket × Status) (L : Legacy), s.tickets[j]? = some p → s.heap.legacies[j]? = some L →
      L.strong = (if p.2 = Status.dead then 0 else 1)
  legSealsLive : ∀ (j : Nat) (L : Legacy), s.heap.legacies[j]? = some L → L.strong ≠ 0 →
      L.seals = List.range' (j + 1) (s.tickets.length - (j + 1))
  sealCount : ∀ (j : Nat) (so : Seal), s.heap.seals[j]? = some so →
      so.strong = ((List.range j).filter (fun i => s.heap.legacyLive i)).length
  flagStrong : ∀ (j : Nat) (lk : Link) (so : Seal), s.heap.links[j]? = some lk → s.heap.seals[j]? = some so →
      lk.released = (so.strong == 0)
  weakNodup : s.lock.legacies.Nodup
  weakValid : ∀ id ∈ s.lock.legacies, id < s.tickets.length
  weakComplete : ∀ i : Nat, s.heap.legacyLive i = true → i ∈ s.lock.legacies

/-- Scenario shared by several claims: one write ticket issued on a
fresh lock. -/
def writeOnce : Heap × Raw.TicketedLock × Ticket :=
  Raw.TicketedLock.write Heap.empty Raw.TicketedLock.new

theorem length_updateAt (xs : List α) (i : Nat) (f : α → α) :
    (updateAt xs i f).length = xs.length := by
  induction xs generalizing i with
  | nil => rfl
  | cons x rest ih =>
    cases i with
    | zero => rfl
    | succ n => simp [updateAt, ih]

theorem getElem?_updateAt (xs : List α) (i : Nat) (f : α → α) (j : Nat) :
    (updateAt xs i f)[j]? =
      if i = j then (xs[j]?).map f else xs[j]? := by
  induction xs generalizing i j with
  | nil => simp [updateAt]
  | cons x rest ih =>
    cases i with
    | zero =>
      cases j with
      | zero => simp [updateAt]
      | succ m => simp [updateAt]
    | succ n =>
      cases j with
      | zero => simp [updateAt]
      | succ m =>
        simp only [updateAt, List.getElem?_cons_succ]
        rw [ih]
        by_cases h : n = m
        · simp [h]
        · simp [h, fun hc => h (Nat.succ_injective hc)]

theorem decSeal_legacies (h : Heap) (sid : Nat) :
    (h.decSeal sid).legacies = h.legacies := by
  unfold Heap.decSeal
  cases hs : h.seals[sid]? with
  | none => rfl
  | some s =>
    by_cases h1 : s.strong = 1 <;> simp [h1]

theorem decSeal_seals_getElem? (h : Heap) (sid j : Nat) :
    (h.decSeal sid).seals[j]? =
      if sid = j then (h.seals[j]?).map (fun t => { t with strong := t.strong - 1 })
      else h.seals[j]? := by
  unfold Heap.decSeal
  cases hs : h.seals[sid]? with
  | none =>
    by_cases he : sid = j
    · subst he; simp [hs]
    · simp [he]
  | some s =>
    by_cases h1 : s.strong = 1 <;> simp [h1, getElem?_updateAt]

theorem decSeal_links_getElem? (h : Heap) (sid j : Nat) :
    (h.decSeal sid).links[j]? =
      if h.sealKills sid j then (h.links[j]?).map (fun lk => { lk with released := true })
      else h.links[j]? := by
  unfold Heap.decSeal Heap.sealKills
  cases hs : h.seals[sid]? with
  | none => simp
  | some s =>
    by_cases h1 : s.strong = 1
    · by_cases hl : s.link = j
      · subst hl; simp [h1, getElem?_updateAt]
      · simp [h1, hl, getElem?_updateAt, Ne.symm hl]
    · simp [h1, getElem?_updateAt]

theorem decSeal_links_length (h : Heap) (sid : Nat) :
    (h.decSeal sid).links.length = h.links.length := by
  unfold Heap.decSeal
  cases hs : h.seals[sid]? with
  | none => rfl
  | some s => by_cases h1 : s.strong = 1 <;> simp [h1, length_updateAt]

theorem decSeal_seals_length (h : Heap) (sid : Nat) :
    (h.decSeal sid).seals.length = h.seals.length := by
  unfold Heap.decSeal
  cases hs : h.seals[sid]? with
  | none => rfl
  | some s => by_cases h1 : s.strong = 1 <;> simp [h1, length_updateAt]

theorem decSeal_legacyLive (h : Heap) (sid j : Nat) :
    (h.decSeal sid).legacyLive j = h.legacyLive j := by
  unfold Heap.legacyLive
  rw [decSeal_legacies]

theorem pushSeal_links (h : Heap) (lid sid : Nat) :
    (h.pushSeal lid sid).links = h.links := rfl

theorem pushSeal_legacies_getElem? (h : Heap) (lid sid j : Nat) :
    (h.pushSeal lid sid).legacies[j]? =
      if lid = j then (h.legacies[j]?).map (fun L => { L with seals := L.seals ++ [sid] })
      else h.legacies[j]? := by
  unfold Heap.pushSeal
  simp [getElem?_updateAt]

theorem pushSeal_seals_getElem? (h : Heap) (lid sid j : Nat) :
    (h.pushSeal lid sid).seals[j]? =
      if sid = j then (h.seals[j]?).map (fun s => { s with strong := s.strong + 1 })
      else h.seals[j]? := by
  unfold Heap.pushSeal
  simp [getElem?_updateAt]

theorem pushSeal_legacies_length (h : Heap) (lid sid : Nat) :
    (h.pushSeal lid sid).legacies.length = h.legacies.length := by
  unfold Heap.pushSeal
  simp [length_updateAt]

theorem pushSeal_seals_length (h : Heap) (lid sid : Nat) :
    (h.pushSeal lid sid).seals.length = h.seals.length := by
  unfold Heap.pushSeal
  simp [length_updateAt]

theorem pushSeal_legacyLive (h : Heap) (lid sid j : Nat) :
    (h.pushSeal lid sid).legacyLive j = h.legacyLive j := by
  unfold Heap.legacyLive
  rw [pushSeal_legacies_getElem?]
  by_cases he : lid = j
  · subst he
    cases hg : h.legacies[lid]? <;> simp [hg]
  · simp [he]

theorem decSeals_legacies (ids : List Nat) : ∀ h : Heap, (h.decSeals ids).legacies = h.legacies := by
  induction ids with
  | nil => intro h; rfl
  | cons a rest ih =>
    intro h
    show (Heap.decSeals (h.decSeal a) rest).legacies = h.legacies
    rw [ih, decSeal_legacies]

theorem decSeals_legacyLive (ids : List Nat) (h : Heap) (j : Nat) :
    (h.decSeals ids).legacyLive j = h.legacyLive j := by
  unfold Heap.legacyLive
  rw [decSeals_legacies]

theorem decSeals_links_length (ids : List Nat) : ∀ h : Heap,
    (h.decSeals ids).links.length = h.links.length := by
  induction ids with
  | nil => intro h; rfl
  | cons a rest ih =>
    intro h
    show (Heap.decSeals (h.decSeal a) rest).links.length = h.links.length
    rw [ih, decSeal_links_length]

theorem decSeals_seals_length (ids : List Nat) : ∀ h : Heap,
    (h.decSeals ids).seals.length = h.seals.length := by
  induction ids with
  | nil => intro h; rfl
  | cons a rest ih =>
    intro h
    show (Heap.decSeals (h.decSeal a) rest).seals.length = h.seals.length
    rw [ih, decSeal_seals_length]

theorem decSeals_seals_getElem? (ids : List Nat) (hnd : ids.Nodup) : ∀ (h : Heap) (j : Nat),
    (h.decSeals ids).seals[j]? =
      if j ∈ ids then (h.seals[j]?).map (fun t => { t with strong := t.strong - 1 })
      else h.seals[j]? := by
  induction ids with
  | nil => intro h j; simp [Heap.decSeals]
  | cons a rest ih =>
    intro h j
    have hna : a ∉ rest := (List.nodup_cons.mp hnd).1
    have hnd2 : rest.Nodup := (List.nodup_cons.mp hnd).2
    show (Heap.decSeals (h.decSeal a) rest).seals[j]? = _
    rw [ih hnd2]
    by_cases hja : j = a
    · subst hja
      rw [if_neg hna, decSeal_seals_getElem?, if_pos rfl, if_pos (List.mem_cons_self j rest)]
    · have hax : ¬ (a = j) := fun he => hja he.symm
      by_cases hjr : j ∈ rest
      · rw [if_pos hjr, if_pos (List.mem_cons.mpr (Or.inr hjr)), decSeal_seals_getElem?,
            if_neg hax]
      · have hnm : ¬ j ∈ a :: rest := by
          rw [List.mem_cons]
          rintro (he | hm)
          · exact hja he
          · exact hjr hm
        rw [if_neg hjr, if_neg hnm, decSeal_seals_getElem?, if_neg hax]

theorem decSeal_preserves_link_field (h : Heap) (a sid : Nat) (s : Seal)
    (hget : (h.decSeal a).seals[sid]? = some s) :
    ∃ s0 : Seal, h.seals[sid]? = some s0 ∧ s0.link = s.link := by
  rw [decSeal_seals_getElem?] at hget
  by_cases hea : a = sid
  · rw [if_pos hea] at hget
    cases hs : h.seals[sid]? with
    | none => rw [hs] at hget; simp at hget
    | some s0 =>
      rw [hs] at hget
      refine ⟨s0, rfl, ?_⟩
      have hv : ({ s0 with strong := s0.strong - 1 } : Seal) = s := by
        exact Option.some_injective Seal hget
      rw [← hv]
  · rw [if_neg hea] at hget
    exact ⟨s, hget, rfl⟩

theorem decSeals_links_getElem? (ids : List Nat) (hnd : ids.Nodup) : ∀ (h : Heap) (j : Nat),
    (∀ sid ∈ ids, ∀ s : Seal, h.seals[sid]? = some s → s.link = sid) →
    (h.decSeals ids).links[j]? =
      if j ∈ ids ∧ h.sealKills j j = true
      then (h.links[j]?).map (fun lk => { lk with released := true })
      else h.links[j]? := by
  induction ids with
  | nil => intro h j _; simp [Heap.decSeals]
  | cons a rest ih =>
    intro h j hlink
    have hna : a ∉ rest := (List.nodup_cons.mp hnd).1
    have hnd2 : rest.Nodup := (List.nodup_cons.mp hnd).2
    have hlink2 : ∀ sid ∈ rest, ∀ s : Seal, (h.decSeal a).seals[sid]? = some s → s.link = sid := by
      intro sid hm s hget
      obtain ⟨s0, hs0, hl0⟩ := decSeal_preserves_link_field h a sid s hget
      rw [← hl0]
      exact hlink sid (List.mem_cons.mpr (Or.inr hm)) s0 hs0
    show (Heap.decSeals (h.decSeal a) rest).links[j]? = _
    rw [ih hnd2 (h.decSeal a) j hlink2]
    by_cases hja : j = a
    · subst hja
      have hcond : ¬ (j ∈ rest ∧ (h.decSeal j).sealKills j j = true) := fun hc => hna hc.1
      rw [if_neg hcond, decSeal_links_getElem?]
      by_cases hk : h.sealKills j j = true
      · rw [if_pos hk, if_pos ⟨List.mem_cons_self j rest, hk⟩]
      · have hcond2 : ¬ (j ∈ j :: rest ∧ h.sealKills j j = true) := fun hc => hk hc.2
        rw [if_neg hk, if_neg hcond2]
    · have hax : ¬ (a = j) := fun he => hja he.symm
      have hkills : h.sealKills a j = false := by
        unfold Heap.sealKills
        cases hs : h.seals[a]? with
        | none => rfl
        | some s =>
          have hsl : s.link = a := hlink a (List.mem_cons_self a rest) s hs
          show (s.link == j && s.strong == 1) = false
          rw [hsl]
          simp [hax]
      have hsame : (h.decSeal a).sealKills j j = h.sealKills j j := by
        unfold Heap.sealKills
        rw [decSeal_seals_getElem?, if_neg hax]
      have hlinksame : (h.decSeal a).links[j]? = h.links[j]? := by
        rw [decSeal_links_getElem?, hkills]
        simp
      rw [hsame, hlinksame]
      by_cases hjr : j ∈ rest
      · by_cases hk : h.sealKills j j = true
        · rw [if_pos ⟨hjr, hk⟩, if_pos ⟨List.mem_cons.mpr (Or.inr hjr), hk⟩]
        · have hc1 : ¬ (j ∈ rest ∧ h.sealKills j j = true) := fun hc => hk hc.2
          have hc2 : ¬ (j ∈ a :: rest ∧ h.sealKills j j = true) := fun hc => hk hc.2
          rw [if_neg hc1, if_neg hc2]
      · have hc1 : ¬ (j ∈ rest ∧ h.sealKills j j = true) := fun hc => hjr hc.1
        have hc2 : ¬ (j ∈ a :: rest ∧ h.sealKills j j = true) := by
          rintro ⟨hm, _⟩
          rcases List.mem_cons.mp hm with he | hm2
          · exact hja he
          · exact hjr hm2
        rw [if_neg hc1, if_neg hc2]

/-- Unfolding of decLegacy when this was the last strong reference. -/
theorem decLegacy_last (h : Heap) (lid : Nat) (L : Legacy)
    (hget : h.legacies[lid]? = some L) (h1 : L.strong = 1) :
    h.decLegacy lid =
      Heap.decSeals
        { h with legacies := updateAt h.legacies lid (fun t => { t with strong := t.strong - 1 }) }
        L.seals := by
  unfold Heap.decLegacy
  rw [hget]
  simp [h1, Heap.decSeals]

/-- Unfolding of decLegacy when other strong references remain. -/
theorem decLegacy_keep (h : Heap) (lid : Nat) (L : Legacy)
    (hget : h.legacies[lid]? = some L) (h1 : L.strong ≠ 1) :
    h.decLegacy lid =
      { h with legacies := updateAt h.legacies lid (fun t => { t with strong := t.strong - 1 }) } := by
  unfold Heap.decLegacy
  rw [hget]
  simp [h1]

theorem getElem?_concat_ne (xs : List α) (x : α) (j : Nat) (hj : j ≠ xs.length) :
    (xs ++ [x])[j]? = xs[j]? := by
  rcases Nat.lt_or_ge j xs.length with hlt | hge
  · exact List.getElem?_append_left hlt
  · have hgt : xs.length < j := lt_of_le_of_ne hge (fun he => hj he.symm)
    rw [List.getElem?_eq_none (le_of_lt hgt), List.getElem?_eq_none]
    simpa using hgt

theorem updateAt_append_length (xs : List α) (x : α) (f : α → α) :
    updateAt (xs ++ [x]) xs.length f = xs ++ [f x] := by
  induction xs with
  | nil => rfl
  | cons a rest ih => simpa [updateAt] using ih

theorem retainStep_live (sid : Nat) (h : Heap) (acc : List Nat) (lid : Nat)
    (hl : h.legacyLive lid = true) :
    Raw.retainStep sid (h, acc) lid = (h.pushSeal lid sid, acc ++ [lid]) := by
  unfold Raw.retainStep
  simp [hl]

theorem retainStep_dead (sid : Nat) (h : Heap) (acc : List Nat) (lid : Nat)
    (hl : ¬ h.legacyLive lid = true) :
    Raw.retainStep sid (h, acc) lid = (h, acc) := by
  unfold Raw.retainStep
  simp [hl]

theorem retainFold_links (sid : Nat) (ids : List Nat) : ∀ (h : Heap) (acc : List Nat),
    (ids.foldl (Raw.retainStep sid) (h, acc)).1.links = h.links := by
  induction ids with
  | nil => intro h acc; rfl
  | cons a rest ih =>
    intro h acc
    show (rest.foldl (Raw.retainStep sid) (Raw.retainStep sid (h, acc) a)).1.links = h.links
    by_cases hl : h.legacyLive a = true
    · rw [retainStep_live sid h acc a hl, ih]
      exact pushSeal_links h a sid
    · rw [retainStep_dead sid h acc a hl]
      exact ih h acc

theorem retainFold_legacyLive (sid : Nat) (ids : List Nat) : ∀ (h : Heap) (acc : List Nat) (j : Nat),
    (ids.foldl (Raw.retainStep sid) (h, acc)).1.legacyLive j = h.legacyLive j := by
  induction ids with
  | nil => intro h acc j; rfl
  | cons a rest ih =>
    intro h acc j
    show (rest.foldl (Raw.retainStep sid) (Raw.retainStep sid (h, acc) a)).1.legacyLive j = _
    by_cases hl : h.legacyLive a = true
    · rw [retainStep_live sid h acc a hl, ih]
      exact pushSeal_legacyLive h a sid j
    · rw [retainStep_dead sid h acc a hl]
      exact ih h acc j

theorem retainFold_legacies_length (sid : Nat) (ids : List Nat) : ∀ (h : Heap) (acc : List Nat),
    (ids.foldl (Raw.retainStep sid) (h, acc)).1.legacies.length = h.legacies.length := by
  induction ids with
  | nil => intro h acc; rfl
  | cons a rest ih =>
    intro h acc
    show (rest.foldl (Raw.retainStep sid) (Raw.retainStep sid (h, acc) a)).1.legacies.length = _
    by_cases hl : h.legacyLive a = true
    · rw [retainStep_live sid h acc a hl, ih]
      exact pushSeal_legacies_length h a sid
    · rw [retainStep_dead sid h acc a hl]
      exact ih h acc

theorem retainFold_seals_length (sid : Nat) (ids : List Nat) : ∀ (h : Heap) (acc : List Nat),
    (ids.foldl (Raw.retainStep sid) (h, acc)).1.seals.length = h.seals.length := by
  induction ids with
  | nil => intro h acc; rfl
  | cons a rest ih =>
    intro h acc
    show (rest.foldl (Raw.retainStep sid) (Raw.retainStep sid (h, acc) a)).1.seals.length = _
    by_cases hl : h.legacyLive a = true
    · rw [retainStep_live sid h acc a hl, ih]
      exact pushSeal_seals_length h a sid
    · rw [retainStep_dead sid h acc a hl]
      exact ih h acc

theorem retainFold_kept (sid : Nat) (ids : List Nat) : ∀ (h : Heap) (acc : List Nat),
    (ids.foldl (Raw.retainStep sid) (h, acc)).2 =
      acc ++ ids.filter (fun id => h.legacyLive id) := by
  induction ids with
  | nil => intro h acc; simp
  | cons a rest ih =>
    intro h acc
    show (rest.foldl (Raw.retainStep sid) (Raw.retainStep sid (h, acc) a)).2 = _
    by_cases hl : h.legacyLive a = true
    · rw [retainStep_live sid h acc a hl, ih]
      have hcg : rest.filter (fun id => (h.pushSeal a sid).legacyLive id) =
          rest.filter (fun id => h.legacyLive id) :=
        List.filter_congr (fun x _ => pushSeal_legacyLive h a sid x)
      rw [hcg, List.filter_cons_of_pos hl, List.append_assoc]
      rfl
    · rw [retainStep_dead sid h acc a hl, ih, List.filter_cons_of_neg hl]

theorem retainFold_legacies_getElem? (sid : Nat) (ids : List Nat) (hnd : ids.Nodup) :
    ∀ (h : Heap) (acc : List Nat) (j : Nat),
    (ids.foldl (Raw.retainStep sid) (h, acc)).1.legacies[j]? =
      if j ∈ ids ∧ h.legacyLive j = true
      then (h.legacies[j]?).map (fun L => { L with seals := L.seals ++ [sid] })
      else h.legacies[j]? := by
  induction ids with
  | nil => intro h acc j; simp
  | cons a rest ih =>
    intro h acc j
    have hna : a ∉ rest := (List.nodup_cons.mp hnd).1
    have hnd2 : rest.Nodup := (List.nodup_cons.mp hnd).2
    show (rest.foldl (Raw.retainStep sid) (Raw.retainStep sid (h, acc) a)).1.legacies[j]? = _
    by_cases hl : h.legacyLive a = true
    · rw [retainStep_live sid h acc a hl, ih hnd2]
      by_cases hja : j = a
      · subst hja
        have hcond : ¬ (j ∈ rest ∧ (h.pushSeal j sid).legacyLive j = true) := fun hc => hna hc.1
        rw [if_neg hcond, pushSeal_legacies_getElem?, if_pos rfl,
            if_pos ⟨List.mem_cons_self j rest, hl⟩]
      · have hax : ¬ (a = j) := fun he => hja he.symm
        have hsame : (h.pushSeal a sid).legacies[j]? = h.legacies[j]? := by
          rw [pushSeal_legacies_getElem?, if_neg hax]
        rw [pushSeal_legacyLive]
        by_cases hc : j ∈ rest ∧ h.legacyLive j = true
        · rw [if_pos hc, if_pos ⟨List.mem_cons.mpr (Or.inr hc.1), hc.2⟩, hsame]
        · have hc2 : ¬ (j ∈ a :: rest ∧ h.legacyLive j = true) := by
            rintro ⟨hm, hlv⟩
            rcases List.mem_cons.mp hm with he | hm2
            · exact hja he
            · exact hc ⟨hm2, hlv⟩
          rw [if_neg hc, if_neg hc2, hsame]
    · rw [retainStep_dead sid h acc a hl, ih hnd2]
      by_cases hja : j = a
      · subst hja
        have hcond : ¬ (j ∈ rest ∧ h.legacyLive j = true) := fun hc => hl hc.2
        have hcond2 : ¬ (j ∈ j :: rest ∧ h.legacyLive j = true) := fun hc => hl hc.2
        rw [if_neg hcond, if_neg hcond2]
      · by_cases hc : j ∈ rest ∧ h.legacyLive j = true
        · rw [if_pos hc, if_pos ⟨List.mem_cons.mpr (Or.inr hc.1), hc.2⟩]
        · have hc2 : ¬ (j ∈ a :: rest ∧ h.legacyLive j = true) := by
            rintro ⟨hm, hlv⟩
            rcases List.mem_cons.mp hm with he | hm2
            · exact hja he
            · exact hc ⟨hm2, hlv⟩
          rw [if_neg hc, if_neg hc2]

theorem retainFold_seals_getElem? (sid : Nat) (ids : List Nat) :
    ∀ (h : Heap) (acc : List Nat) (j : Nat),
    (ids.foldl (Raw.retainStep sid) (h, acc)).1.seals[j]? =
      if sid = j
      then (h.seals[j]?).map
            (fun s => { s with strong := s.strong + (ids.filter (fun id => h.legacyLive id)).length })
      else h.seals[j]? := by
  induction ids with
  | nil =>
    intro h acc j
    by_cases he : sid = j
    · subst he
      cases hs : h.seals[sid]? <;> simp [hs]
    · simp [he]
  | cons a rest ih =>
    intro h acc j
    show (rest.foldl (Raw.retainStep sid) (Raw.retainStep sid (h, acc) a)).1.seals[j]? = _
    by_cases hl : h.legacyLive a = true
    · rw [retainStep_live sid h acc a hl, ih]
      have hcg : rest.filter (fun id => (h.pushSeal a sid).legacyLive id) =
          rest.filter (fun id => h.legacyLive id) :=
        List.filter_congr (fun x _ => pushSeal_legacyLive h a sid x)
      rw [hcg, List.filter_cons_of_pos hl]
      by_cases he : sid = j
      · subst he
        rw [if_pos rfl, if_pos rfl, pushSeal_seals_getElem?, if_pos rfl, Option.map_map]
        cases hs : h.seals[sid]? with
        | none => rfl
        | some s =>
          simp only [Option.map_some', Function.comp_apply, List.length_cons]
          rw [Nat.add_assoc, Nat.add_comm 1]
      · rw [if_neg he, if_neg he, pushSeal_seals_getElem?, if_neg he]
    · rw [retainStep_dead sid h acc a hl, ih, List.filter_cons_of_neg hl]

theorem legacyLive_mk (links : List Link) (seals : List Seal) (h : Heap) (lid : Nat) :
    Heap.legacyLive { links := links, seals := seals, legacies := h.legacies } lid =
      h.legacyLive lid := rfl

theorem issue_lock (h : Heap) (l : Raw.TicketedLock) :
    (Raw.TicketedLock.issue h l).2.1 =
      { next_index := l.next_index + 1,
        legacies := l.legacies.filter (fun id => h.legacyLive id) ++ [h.legacies.length],
        last_read := l.last_read } := by
  unfold Raw.TicketedLock.issue
  simp only [retainFold_kept, retainFold_legacies_length, List.nil_append, legacyLive_mk]

theorem issue_ids (h : Heap) (l : Raw.TicketedLock) :
    (Raw.TicketedLock.issue h l).2.2 = (h.links.length, h.legacies.length) := by
  unfold Raw.TicketedLock.issue
  simp only [retainFold_legacies_length]

theorem issue_seals (h : Heap) (l : Raw.TicketedLock) :
    (Raw.TicketedLock.issue h l).1.seals =
      h.seals ++ [{ link := h.links.length, strong := liveCount h l }] := by
  apply List.ext_getElem?
  intro j
  unfold Raw.TicketedLock.issue
  simp only [decSeal_seals_getElem?, retainFold_seals_getElem?, legacyLive_mk]
  by_cases he : h.seals.length = j
  · subst he
    rw [if_pos rfl, if_pos rfl, List.getElem?_concat_length, List.getElem?_concat_length]
    simp [liveCount]
  · rw [if_neg he, if_neg he, getElem?_concat_ne _ _ _ (fun hc => he hc.symm),
        getElem?_concat_ne _ _ _ (fun hc => he hc.symm)]

theorem sealKills_def (h : Heap) (sid j : Nat) :
    h.sealKills sid j = ((h.seals[sid]?).map (fun s => s.link == j && s.strong == 1)).getD false := by
  unfold Heap.sealKills
  cases h.seals[sid]? <;> rfl

theorem getElem?_concat_of_length_eq (xs : List α) (x : α) (j : Nat) (hj : xs.length = j) :
    (xs ++ [x])[j]? = some x := by
  subst hj
  exact List.getElem?_concat_length xs x

theorem issue_links (h : Heap) (l : Raw.TicketedLock) :
    (Raw.TicketedLock.issue h l).1.links =
      h.links ++ [{ released := decide (liveCount h l = 0), index := l.next_index + 1 }] := by
  apply List.ext_getElem?
  intro j
  unfold Raw.TicketedLock.issue
  simp only [decSeal_links_getElem?, sealKills_def, retainFold_seals_getElem?,
    retainFold_links, legacyLive_mk, List.getElem?_concat_length, eq_self_iff_true, if_true,
    Option.map_some', Option.getD_some, liveCount]
  by_cases hj : j = h.links.length
  · subst hj
    rw [List.getElem?_concat_length, List.getElem?_concat_length]
    by_cases hc : (l.legacies.filter (fun id => h.legacyLive id)).length = 0
    · simp [hc]
    · simp [hc, Nat.succ_ne_zero, fun hx : 1 + (l.legacies.filter (fun id => h.legacyLive id)).length = 1 => hc (by omega)]
  · have hne : ¬ (h.links.length = j) := fun he => hj he.symm
    rw [getElem?_concat_ne _ _ _ hj, getElem?_concat_ne _ _ _ hj]
    simp [hne]

theorem issue_legacies_getElem? (h : Heap) (l : Raw.TicketedLock) (hnd : l.legacies.Nodup)
    (j : Nat) :
    (Raw.TicketedLock.issue h l).1.legacies[j]? =
      if j = h.legacies.length then some { seals := [], strong := 1 }
      else if j ∈ l.legacies ∧ h.legacyLive j = true
      then (h.legacies[j]?).map (fun L => { L with seals := L.seals ++ [h.seals.length] })
      else h.legacies[j]? := by
  unfold Raw.TicketedLock.issue
  simp only [decSeal_legacies]
  by_cases hj : j = h.legacies.length
  · subst hj
    rw [if_pos rfl]
    exact getElem?_concat_of_length_eq _ _ _ (retainFold_legacies_length _ _ _ _)
  · rw [if_neg hj]
    have hlen : (List.foldl (Raw.retainStep h.seals.length)
        ({ links := h.links ++ [{ released := false, index := l.next_index + 1 }],
           seals := h.seals ++ [{ link := h.links.length, strong := 1 }], legacies := h.legacies },
          ([] : List Nat)) l.legacies).1.legacies.length = h.legacies.length :=
      retainFold_legacies_length _ _ _ _
    rw [getElem?_concat_ne _ _ _ (fun hc => hj (hc.trans hlen)),
        retainFold_legacies_getElem? _ _ hnd]
    simp only [legacyLive_mk]

theorem issue_legacies_length (h : Heap) (l : Raw.TicketedLock) :
    (Raw.TicketedLock.issue h l).1.legacies.length = h.legacies.length + 1 := by
  unfold Raw.TicketedLock.issue
  rw [decSeal_legacies]
  simp [retainFold_legacies_length]

theorem issue_legacyLive (h : Heap) (l : Raw.TicketedLock) (hnd : l.legacies.Nodup) (j : Nat) :
    (Raw.TicketedLock.issue h l).1.legacyLive j =
      if j = h.legacies.length then true else h.legacyLive j := by
  unfold Heap.legacyLive
  rw [issue_legacies_getElem? h l hnd j]
  by_cases hj : j = h.legacies.length
  · simp [hj]
  · rw [if_neg hj, if_neg hj]
    by_cases hc : j ∈ l.legacies ∧ Heap.legacyLive h j = true
    · rw [if_pos hc]
      cases hg : h.legacies[j]? with
      | none => rfl
      | some L => simp
    · rw [if_neg hc]

theorem mk_last_read_none (l : Raw.TicketedLock) (hlr : l.last_read = none) :
    ({ l with last_read := none } : Raw.TicketedLock) = l := by
  cases l
  simp only at hlr
  rw [show (none : Option Ticket) = _ from hlr.symm]

theorem write_eq (h : Heap) (l : Raw.TicketedLock) (hlr : l.last_read = none) :
    Raw.TicketedLock.write h l =
      ((Raw.TicketedLock.issue h l).1, (Raw.TicketedLock.issue h l).2.1,
       { link := (Raw.TicketedLock.issue h l).2.2.1,
         legacy := (Raw.TicketedLock.issue h l).2.2.2,
         access := Access.writeAccess }) := by
  unfold Raw.TicketedLock.write
  rw [hlr, mk_last_read_none l hlr]

theorem read_eq (h : Heap) (l : Raw.TicketedLock) (hlr : l.last_read = none) :
    Raw.TicketedLock.read h l =
      ((Raw.TicketedLock.issue h l).1, (Raw.TicketedLock.issue h l).2.1,
       { link := (Raw.TicketedLock.issue h l).2.2.1,
         legacy := (Raw.TicketedLock.issue h l).2.2.2,
         access := Access.readAccess }) := by
  unfold Raw.TicketedLock.read
  rw [hlr]

theorem beq_zero_eq_decide (c : Nat) : (c == 0) = decide (c = 0) := by
  cases c <;> rfl

/-- If the predicate flips from true to false at exactly one index below
j, the count of true indices drops by exactly one. -/
theorem filter_range_update_length (i0 : Nat) (P Q : Nat → Bool)
    (hP : P i0 = true) (hQ : Q i0 = false) (hPQ : ∀ k, k ≠ i0 → Q k = P k) :
    ∀ j : Nat, i0 < j →
    ((List.range j).filter Q).length + 1 = ((List.range j).filter P).length := by
  intro j
  induction j with
  | zero => intro hlt; exact absurd hlt (Nat.not_lt_zero i0)
  | succ m ih =>
    intro hlt
    rw [List.range_succ, List.filter_append, List.filter_append]
    rcases Nat.lt_or_ge i0 m with hm | hm
    · have heq : ([m].filter Q).length = ([m].filter P).length := by
        have hne : m ≠ i0 := by omega
        simp only [List.filter, hPQ m hne]
      rw [List.length_append, List.length_append, heq]
      have := ih hm
      omega
    · have hi0 : i0 = m := Nat.le_antisymm (Nat.lt_succ_iff.mp hlt) hm
      subst hi0
      have hcg : (List.range i0).filter Q = (List.range i0).filter P := by
        apply List.filter_congr
        intro x hx
        have hxlt := List.mem_range.mp hx
        exact hPQ x (by omega)
      rw [hcg, List.length_append, List.length_append]
      simp [List.filter, hP, hQ]

theorem getElem?_concat (xs : List α) (x : α) (j : Nat) :
    (xs ++ [x])[j]? = if j = xs.length then some x else xs[j]? := by
  by_cases hj : j = xs.length
  · subst hj
    simp [List.getElem?_concat_length]
  · rw [if_neg hj, getElem?_concat_ne _ _ _ hj]

theorem lt_of_getElem?_some {xs : List α} {j : Nat} {x : α} (h : xs[j]? = some x) :
    j < xs.length := by
  by_contra hc
  rw [List.getElem?_eq_none (Nat.le_of_not_lt hc)] at h
  cases h

theorem init_inv : SysInv Sys.init := by
  refine ⟨rfl, rfl, rfl, rfl, rfl, ?_, ?_, ?_, ?_, ?_, ?_, List.nodup_nil, ?_, ?_⟩
  · intro j p hp
    cases hp
  · intro j so hso
    cases hso
  · intro j p L hp _
    cases hp
  · intro j L hL
    cases hL
  · intro j so hso
    cases hso
  · intro j lk so hlk hso
    cases hlk
  · intro id hm
    cases hm
  · intro i hl
    cases hl

theorem liveCount_eq (s : Sys) (hInv : SysInv s) :
    liveCount s.heap s.lock =
      ((List.range s.tickets.length).filter (fun i => s.heap.legacyLive i)).length := by
  unfold liveCount
  have h1 : (s.lock.legacies.filter (fun id => s.heap.legacyLive id)).Nodup :=
    hInv.weakNodup.filter _
  have h2 : ((List.range s.tickets.length).filter (fun i => s.heap.legacyLive i)).Nodup :=
    (List.nodup_range s.tickets.length).filter _
  have hperm : List.Perm (s.lock.legacies.filter (fun id => s.heap.legacyLive id))
      ((List.range s.tickets.length).filter (fun i => s.heap.legacyLive i)) := by
    rw [List.perm_ext_iff_of_nodup h1 h2]
    intro a
    simp only [List.mem_filter, List.mem_range]
    constructor
    · rintro ⟨hm, hl⟩
      exact ⟨hInv.weakValid a hm, hl⟩
    · rintro ⟨hlt, hl⟩
      exact ⟨hInv.weakComplete a hl, hl⟩
  exact hperm.length_eq

/-- Issuing a ticket (the shared body of read and write in a state with
an empty read cache) preserves the invariant; the fresh ticket enters
the ledger as pending and owns the three fresh heap objects. -/
theorem issue_step_inv (s : Sys) (hInv : SysInv s) (acc : Access) :
    SysInv { heap := (Raw.TicketedLock.issue s.heap s.lock).1,
             lock := (Raw.TicketedLock.issue s.heap s.lock).2.1,
             tickets := s.tickets ++
               [({ link := (Raw.TicketedLock.issue s.heap s.lock).2.2.1,
                   legacy := (Raw.TicketedLock.issue s.heap s.lock).2.2.2,
                   access := acc }, Status.pending)] } := by
  have hnd := hInv.weakNodup
  have hids := issue_ids s.heap s.lock
  have hlinkid : (Raw.TicketedLock.issue s.heap s.lock).2.2.1 = s.heap.links.length := by
    rw [hids]
  have hlegid : (Raw.TicketedLock.issue s.heap s.lock).2.2.2 = s.heap.legacies.length := by
    rw [hids]
  set n := s.tickets.length with hn
  have hLL : s.heap.links.length = n := hInv.linksLen
  have hSL : s.heap.seals.length = n := hInv.sealsLen
  have hGL : s.heap.legacies.length = n := hInv.legsLen
  have hC := liveCount_eq s hInv
  have hnew : ∀ i : Nat, i < n →
      (Raw.TicketedLock.issue s.heap s.lock).1.legacyLive i = s.heap.legacyLive i := by
    intro i hi
    rw [issue_legacyLive s.heap s.lock hnd i, if_neg (by rw [hGL]; omega)]
  refine ⟨?_, ?_, ?_, ?_, ?_, ?_, ?_, ?_, ?_, ?_, ?_, ?_, ?_, ?_⟩
  · show (Raw.TicketedLock.issue s.heap s.lock).1.links.length = _
    rw [issue_links]
    simp [hLL]
  · show (Raw.TicketedLock.issue s.heap s.lock).1.seals.length = _
    rw [issue_seals]
    simp [hSL]
  · show (Raw.TicketedLock.issue s.heap s.lock).1.legacies.length = _
    rw [issue_legacies_length]
    simp [hGL]
  · show (Raw.TicketedLock.issue s.heap s.lock).2.1.next_index = _
    rw [issue_lock]
    simp [hInv.nextIdx]
  · show (Raw.TicketedLock.issue s.heap s.lock).2.1.last_read = none
    rw [issue_lock]
    exact hInv.lastRead
  · intro j p hp
    rw [getElem?_concat] at hp
    by_cases hj : j = n
    · rw [if_pos hj] at hp
      injection hp with hp
      rw [← hp]
      exact ⟨by rw [hlinkid, hLL, hj], by rw [hlegid, hGL, hj]⟩
    · rw [if_neg hj] at hp
      exact hInv.tickIds j p hp
  · intro j so hso
    show so.link = j
    have hso2 : (Raw.TicketedLock.issue s.heap s.lock).1.seals[j]? = some so := hso
    rw [issue_seals, getElem?_concat] at hso2
    by_cases hj : j = s.heap.seals.length
    · rw [if_pos hj] at hso2
      injection hso2 with hso2
      rw [← hso2, hLL, hj, hSL]
    · rw [if_neg hj] at hso2
      exact hInv.sealLink j so hso2
  · intro j p L hp hL
    rw [getElem?_concat] at hp
    have hL2 : (Raw.TicketedLock.issue s.heap s.lock).1.legacies[j]? = some L := hL
    rw [issue_legacies_getElem? s.heap s.lock hnd j] at hL2
    by_cases hj : j = n
    · have hj2 : j = s.heap.legacies.length := by rw [hGL]; exact hj
      rw [if_pos hj] at hp
      rw [if_pos hj2] at hL2
      injection hp with hp
      injection hL2 with hL2
      rw [← hp, ← hL2]
      rfl
    · have hj2 : ¬ j = s.heap.legacies.length := by rw [hGL]; exact hj
      rw [if_neg hj] at hp
      rw [if_neg hj2] at hL2
      by_cases hc : j ∈ s.lock.legacies ∧ s.heap.legacyLive j = true
      · rw [if_pos hc] at hL2
        cases hg : s.heap.legacies[j]? with
        | none => rw [hg] at hL2; cases hL2
        | some L0 =>
          rw [hg] at hL2
          injection hL2 with hL2
          have hold := hInv.legStrongStatus j p L0 hp hg
          rw [← hL2]
          exact hold
      · rw [if_neg hc] at hL2
        exact hInv.legStrongStatus j p L hp hL2
  · intro j L hL hs0
    show L.seals = _
    have hL2 : (Raw.TicketedLock.issue s.heap s.lock).1.legacies[j]? = some L := hL
    rw [issue_legacies_getElem? s.heap s.lock hnd j] at hL2
    simp only [List.length_append, List.length_cons, List.length_nil]
    by_cases hj : j = s.heap.legacies.length
    · rw [if_pos hj] at hL2
      injection hL2 with hL2
      rw [← hL2, hj, hGL]
      simp
    · rw [if_neg hj] at hL2
      by_cases hc : j ∈ s.lock.legacies ∧ s.heap.legacyLive j = true
      · rw [if_pos hc] at hL2
        cases hg : s.heap.legacies[j]? with
        | none => rw [hg] at hL2; cases hL2
        | some L0 =>
          rw [hg] at hL2
          injection hL2 with hL2
          have hjlt : j < n := by
            have := lt_of_getElem?_some hg
            rwa [hGL] at this
          have hstr : L0.strong ≠ 0 := by
            have : L.strong = L0.strong := by rw [← hL2]
            rwa [this] at hs0
          have hold := hInv.legSealsLive j L0 hg hstr
          rw [← hL2]
          show L0.seals ++ [s.heap.seals.length] = _
          rw [hold, hSL]
          have hrc : List.range' (j + 1) ((n - (j + 1)) + 1) =
              List.range' (j + 1) (n - (j + 1)) ++ [(j + 1) + (n - (j + 1))] := by
            simpa using @List.range'_concat 1 (j + 1) (n - (j + 1))
          rw [show (j + 1) + (n - (j + 1)) = n from by omega] at hrc
          rw [← hrc, show n + 1 - (j + 1) = (n - (j + 1)) + 1 from by omega]
      · rw [if_neg hc] at hL2
        exfalso
        have hlive : s.heap.legacyLive j = true := by
          unfold Heap.legacyLive
          rw [hL2]
          simp [hs0]
        exact hc ⟨hInv.weakComplete j hlive, hlive⟩
  · intro j so hso
    have hso2 : (Raw.TicketedLock.issue s.heap s.lock).1.seals[j]? = some so := hso
    rw [issue_seals, getElem?_concat] at hso2
    by_cases hj : j = s.heap.seals.length
    · rw [if_pos hj] at hso2
      injection hso2 with hso2
      rw [← hso2]
      show liveCount s.heap s.lock = _
      rw [hC, show j = n from by rw [hj, hSL]]
      exact (congrArg List.length
        (List.filter_congr (fun x hx => hnew x (List.mem_range.mp hx)))).symm
    · rw [if_neg hj] at hso2
      have hjlt : j < n := by
        have := lt_of_getElem?_some hso2
        rwa [hSL] at this
      rw [hInv.sealCount j so hso2]
      exact (congrArg List.length
        (List.filter_congr (fun x hx => hnew x (by
          have := List.mem_range.mp hx
          omega)))).symm
  · intro j lk so hlk hso
    have hlk2 : (Raw.TicketedLock.issue s.heap s.lock).1.links[j]? = some lk := hlk
    have hso2 : (Raw.TicketedLock.issue s.heap s.lock).1.seals[j]? = some so := hso
    rw [issue_links, getElem?_concat] at hlk2
    rw [issue_seals, getElem?_concat] at hso2
    by_cases hj1 : j = s.heap.links.length
    · have hj2 : j = s.heap.seals.length := by rw [hSL, ← hLL]; exact hj1
      rw [if_pos hj1] at hlk2
      rw [if_pos hj2] at hso2
      injection hlk2 with hlk2
      injection hso2 with hso2
      rw [← hlk2, ← hso2]
      show decide (liveCount s.heap s.lock = 0) = _
      rw [beq_zero_eq_decide]
    · have hj2 : ¬ j = s.heap.seals.length := by rw [hSL, ← hLL]; exact hj1
      rw [if_neg hj1] at hlk2
      rw [if_neg hj2] at hso2
      exact hInv.flagStrong j lk so hlk2 hso2
  · show (Raw.TicketedLock.issue s.heap s.lock).2.1.legacies.Nodup
    rw [issue_lock]
    rw [List.nodup_append]
    refine ⟨hInv.weakNodup.filter _, List.nodup_singleton _, ?_⟩
    intro x hx hx2
    have hxv := hInv.weakValid x (List.mem_filter.mp hx).1
    rw [List.mem_singleton] at hx2
    rw [hx2, hGL] at hxv
    exact Nat.lt_irrefl n hxv
  · intro id hm
    have hm2 : id ∈ (Raw.TicketedLock.issue s.heap s.lock).2.1.legacies := hm
    rw [issue_lock] at hm2
    show id < (s.tickets ++ [_]).length
    simp only [List.length_append, List.length_cons, List.length_nil]
    rcases List.mem_append.mp hm2 with hm1 | hm1
    · have := hInv.weakValid id (List.mem_filter.mp hm1).1
      omega
    · rw [List.mem_singleton] at hm1
      rw [hm1, hGL]
      omega
  · intro i hl
    have hl2 : (Raw.TicketedLock.issue s.heap s.lock).1.legacyLive i = true := hl
    rw [issue_legacyLive s.heap s.lock hnd i] at hl2
    show i ∈ (Raw.TicketedLock.issue s.heap s.lock).2.1.legacies
    rw [issue_lock]
    by_cases hi : i = s.heap.legacies.length
    · refine List.mem_append_right _ ?_
      rw [hi]
      exact List.mem_singleton_self _
    · rw [if_neg hi] at hl2
      exact List.mem_append_left _ (List.mem_filter.mpr ⟨hInv.weakComplete i hl2, hl2⟩)

/-- Dropping the last strong reference of ticket i's registry (either by
abandoning the pending ticket or by dropping its guard) preserves the
invariant: the registry dies, every successor seal loses one reference,
and any seal that reaches zero releases its link. -/
theorem dec_step_inv (s : Sys) (hInv : SysInv s) (i : Nat) (t : Ticket) (st : Status)
    (hti : s.tickets[i]? = some (t, st)) (hst : st ≠ Status.dead) :
    SysInv { heap := s.heap.decLegacy t.legacy,
             lock := s.lock,
             tickets := updateAt s.tickets i (fun p => (p.1, Status.dead)) } := by
  set n := s.tickets.length with hn
  have hLL : s.heap.links.length = n := hInv.linksLen
  have hSL : s.heap.seals.length = n := hInv.sealsLen
  have hGL : s.heap.legacies.length = n := hInv.legsLen
  have htid := hInv.tickIds i (t, st) hti
  have hiltn : i < n := lt_of_getElem?_some hti
  obtain ⟨L, hLi⟩ : ∃ L, s.heap.legacies[i]? = some L := by
    rw [List.getElem?_eq_getElem (by omega : i < s.heap.legacies.length)]
    exact ⟨_, rfl⟩
  have hstrong : L.strong = 1 := by
    have hx := hInv.legStrongStatus i (t, st) L hti hLi
    rwa [if_neg hst] at hx
  have hseals : L.seals = List.range' (i + 1) (n - (i + 1)) :=
    hInv.legSealsLive i L hLi (by omega)
  have hnd : L.seals.Nodup := by
    rw [hseals]
    exact List.nodup_range' _ _
  have hmem : ∀ j, j ∈ L.seals ↔ (i < j ∧ j < n) := by
    intro j
    rw [hseals, List.mem_range'_1]
    omega
  have hlivei : s.heap.legacyLive i = true := by
    unfold Heap.legacyLive
    rw [hLi]
    simp [hstrong]
  have hdec : s.heap.decLegacy t.legacy =
      Heap.decSeals
        { s.heap with legacies := updateAt s.heap.legacies i (fun x => { x with strong := x.strong - 1 }) }
        L.seals := by
    rw [htid.2]
    exact decLegacy_last s.heap i L hLi hstrong
  have hlinkpre : ∀ sid ∈ L.seals, ∀ so : Seal,
      ({ s.heap with legacies := updateAt s.heap.legacies i (fun x => { x with strong := x.strong - 1 }) } : Heap).seals[sid]? = some so → so.link = sid := by
    intro sid _ so hso
    exact hInv.sealLink sid so hso
  have hlegsH : ∀ j, (s.heap.decLegacy t.legacy).legacies[j]? =
      if i = j then (s.heap.legacies[j]?).map (fun x => { x with strong := x.strong - 1 })
      else s.heap.legacies[j]? := by
    intro j
    rw [hdec, decSeals_legacies]
    exact getElem?_updateAt s.heap.legacies i _ j
  have hsealsH : ∀ j, (s.heap.decLegacy t.legacy).seals[j]? =
      if j ∈ L.seals then (s.heap.seals[j]?).map (fun x => { x with strong := x.strong - 1 })
      else s.heap.seals[j]? := by
    intro j
    rw [hdec]
    exact decSeals_seals_getElem? L.seals hnd _ j
  have hlinksH : ∀ j, (s.heap.decLegacy t.legacy).links[j]? =
      if j ∈ L.seals ∧ s.heap.sealKills j j = true
      then (s.heap.links[j]?).map (fun lk => { lk with released := true })
      else s.heap.links[j]? := by
    intro j
    rw [hdec]
    exact decSeals_links_getElem? L.seals hnd _ j hlinkpre
  have hliveH : ∀ k, (s.heap.decLegacy t.legacy).legacyLive k =
      if k = i then false else s.heap.legacyLive k := by
    intro k
    unfold Heap.legacyLive
    rw [hlegsH k]
    by_cases hk : k = i
    · rw [if_pos hk.symm, if_pos hk, hk, hLi]
      simp [hstrong]
    · rw [if_neg (fun he => hk he.symm), if_neg hk]
  refine ⟨?_, ?_, ?_, ?_, ?_, ?_, ?_, ?_, ?_, ?_, ?_, hInv.weakNodup, ?_, ?_⟩
  · show (s.heap.decLegacy t.legacy).links.length = _
    rw [hdec, decSeals_links_length]
    simp [length_updateAt, hLL]
  · show (s.heap.decLegacy t.legacy).seals.length = _
    rw [hdec, decSeals_seals_length]
    simp [length_updateAt, hSL]
  · show (s.heap.decLegacy t.legacy).legacies.length = _
    rw [hdec, decSeals_legacies]
    simp [length_updateAt, hGL]
  · show s.lock.next_index = _
    rw [length_updateAt]
    exact hInv.nextIdx
  · exact hInv.lastRead
  · intro j p hp
    rw [getElem?_updateAt] at hp
    by_cases hj : i = j
    · rw [if_pos hj] at hp
      cases hq : s.tickets[j]? with
      | none => rw [hq] at hp; cases hp
      | some q =>
        rw [hq] at hp
        injection hp with hp
        have := hInv.tickIds j q hq
        rw [← hp]
        exact this
    · rw [if_neg hj] at hp
      exact hInv.tickIds j p hp
  · intro j so hso
    rw [hsealsH j] at hso
    by_cases hj : j ∈ L.seals
    · rw [if_pos hj] at hso
      cases hq : s.heap.seals[j]? with
      | none => rw [hq] at hso; cases hso
      | some q =>
        rw [hq] at hso
        injection hso with hso
        have := hInv.sealLink j q hq
        rw [← hso]
        exact this
    · rw [if_neg hj] at hso
      exact hInv.sealLink j so hso
  · intro j p L2 hp hL2
    rw [getElem?_updateAt] at hp
    rw [hlegsH j] at hL2
    by_cases hj : i = j
    · rw [if_pos hj] at hp
      rw [if_pos hj] at hL2
      rw [← hj] at hp hL2
      rw [hti] at hp
      rw [hLi] at hL2
      injection hp with hp
      injection hL2 with hL2
      rw [← hp, ← hL2]
      simp [hstrong]
    · rw [if_neg hj] at hp
      rw [if_neg hj] at hL2
      exact hInv.legStrongStatus j p L2 hp hL2
  · intro j L2 hL2 hs0
    show L2.seals = _
    rw [length_updateAt]
    rw [hlegsH j] at hL2
    by_cases hj : i = j
    · exfalso
      rw [if_pos hj, ← hj, hLi] at hL2
      injection hL2 with hL2
      apply hs0
      rw [← hL2]
      simp [hstrong]
    · rw [if_neg hj] at hL2
      exact hInv.legSealsLive j L2 hL2 hs0
  · intro j so hso
    show so.strong = ((List.range j).filter (fun k => (s.heap.decLegacy t.legacy).legacyLive k)).length
    rw [hsealsH j] at hso
    by_cases hj : j ∈ L.seals
    · rw [if_pos hj] at hso
      cases hq : s.heap.seals[j]? with
      | none => rw [hq] at hso; cases hso
      | some q =>
        rw [hq] at hso
        injection hso with hso
        have hcnt := hInv.sealCount j q hq
        have hij := (hmem j).mp hj
        have hupd := filter_range_update_length i
          (fun k => s.heap.legacyLive k)
          (fun k => (s.heap.decLegacy t.legacy).legacyLive k)
          hlivei
          (by
            show (s.heap.decLegacy t.legacy).legacyLive i = false
            rw [hliveH i]
            simp)
          (fun k hk => by
            show (s.heap.decLegacy t.legacy).legacyLive k = s.heap.legacyLive k
            rw [hliveH k, if_neg hk])
          j hij.1
        have hge : q.strong ≥ 1 := by
          have hmemf : i ∈ (List.range j).filter (fun k => s.heap.legacyLive k) :=
            List.mem_filter.mpr ⟨List.mem_range.mpr hij.1, hlivei⟩
          have := List.length_pos_of_mem hmemf
          omega
        rw [← hso]
        show q.strong - 1 = _
        omega
    · rw [if_neg hj] at hso
      have hcnt := hInv.sealCount j so hso
      have hjn : j < n := by
        have := lt_of_getElem?_some hso
        omega
      have hji : j ≤ i := by
        rcases Nat.lt_or_ge i j with hlt | hle
        · exact absurd ((hmem j).mpr ⟨hlt, hjn⟩) hj
        · exact hle
      rw [hcnt]
      refine congrArg List.length (List.filter_congr ?_)
      intro x hx
      have hxj := List.mem_range.mp hx
      rw [hliveH x, if_neg (by omega)]
  · intro j lk so hlk hso
    rw [hlinksH j] at hlk
    rw [hsealsH j] at hso
    by_cases hj : j ∈ L.seals
    · rw [if_pos hj] at hso
      cases hq : s.heap.seals[j]? with
      | none => rw [hq] at hso; cases hso
      | some q =>
        rw [hq] at hso
        injection hso with hso
        have hql : q.link = j := hInv.sealLink j q hq
        have hkills : s.heap.sealKills j j = (q.strong == 1) := by
          unfold Heap.sealKills
          rw [hq]
          show (q.link == j && q.strong == 1) = (q.strong == 1)
          rw [hql]
          simp
        have hge : q.strong ≥ 1 := by
          have hij := (hmem j).mp hj
          have hcnt := hInv.sealCount j q hq
          have hmemf : i ∈ (List.range j).filter (fun k => s.heap.legacyLive k) :=
            List.mem_filter.mpr ⟨List.mem_range.mpr hij.1, hlivei⟩
          have := List.length_pos_of_mem hmemf
          omega
        by_cases h1 : q.strong = 1
        · rw [if_pos ⟨hj, by rw [hkills, h1]; rfl⟩] at hlk
          cases hr : s.heap.links[j]? with
          | none => rw [hr] at hlk; cases hlk
          | some lk0 =>
            rw [hr] at hlk
            injection hlk with hlk
            rw [← hlk, ← hso]
            show true = (q.strong - 1 == 0)
            rw [h1]
            rfl
        · rw [if_neg (fun hc => h1 (by
            have hx := hc.2
            rw [hkills] at hx
            simpa using hx))] at hlk
          have hbase := hInv.flagStrong j lk q hlk hq
          rw [← hso]
          show lk.released = (q.strong - 1 == 0)
          rw [hbase]
          have h2 : q.strong ≥ 2 := by omega
          have hb1 : (q.strong == 0) = false := by
            cases hqs : q.strong with
            | zero => exact absurd hqs (by omega)
            | succ m => rfl
          have hb2 : (q.strong - 1 == 0) = false := by
            cases hqs : q.strong - 1 with
            | zero => exact absurd hqs (by omega)
            | succ m => rfl
          rw [hb1, hb2]
    · rw [if_neg (fun hc => hj hc.1)] at hlk
      rw [if_neg hj] at hso
      exact hInv.flagStrong j lk so hlk hso
  · intro id hm
    show id < (updateAt s.tickets i _).length
    rw [length_updateAt]
    exact hInv.weakValid id hm
  · intro k hk
    have hk2 : (s.heap.decLegacy t.legacy).legacyLive k = true := hk
    rw [hliveH k] at hk2
    by_cases hki : k = i
    · rw [if_pos hki] at hk2
      cases hk2
    · rw [if_neg hki] at hk2
      exact hInv.weakComplete k hk2

/-- Completing a wait (pending to active) only relabels the ledger: the
guard takes over the very registry reference the ticket held, so the
heap is untouched and the invariant survives. -/
theorem wait_step_inv (s : Sys) (hInv : SysInv s) (i : Nat) (t : Ticket)
    (hti : s.tickets[i]? = some (t, Status.pending)) :
    SysInv { heap := s.heap, lock := s.lock,
             tickets := updateAt s.tickets i (fun p => (p.1, Status.active)) } := by
  refine ⟨?_, ?_, ?_, ?_, hInv.lastRead, ?_, hInv.sealLink, ?_, ?_, hInv.sealCount,
    hInv.flagStrong, hInv.weakNodup, ?_, hInv.weakComplete⟩
  · show s.heap.links.length = _
    rw [length_updateAt]
    exact hInv.linksLen
  · show s.heap.seals.length = _
    rw [length_updateAt]
    exact hInv.sealsLen
  · show s.heap.legacies.length = _
    rw [length_updateAt]
    exact hInv.legsLen
  · show s.lock.next_index = _
    rw [length_updateAt]
    exact hInv.nextIdx
  · intro j p hp
    rw [getElem?_updateAt] at hp
    by_cases hj : i = j
    · rw [if_pos hj] at hp
      cases hq : s.tickets[j]? with
      | none => rw [hq] at hp; cases hp
      | some q =>
        rw [hq] at hp
        injection hp with hp
        have := hInv.tickIds j q hq
        rw [← hp]
        exact this
    · rw [if_neg hj] at hp
      exact hInv.tickIds j p hp
  · intro j p L hp hL
    rw [getElem?_updateAt] at hp
    by_cases hj : i = j
    · rw [if_pos hj] at hp
      rw [← hj] at hp hL
      rw [hti] at hp
      injection hp with hp
      have := hInv.legStrongStatus i (t, Status.pending) L hti hL
      rw [← hp]
      exact this
    · rw [if_neg hj] at hp
      exact hInv.legStrongStatus j p L hp hL
  · intro j L hL hs0
    show L.seals = _
    rw [length_updateAt]
    exact hInv.legSealsLive j L hL hs0
  · intro id hm
    show id < _
    rw [length_updateAt]
    exact hInv.weakValid id hm

/-- Every atomic event preserves the invariant. -/
theorem step_preserves_inv (s : Sys) (a : Action) (hInv : SysInv s) : SysInv (step s a) := by
  cases a with
  | issueRead =>
    show SysInv { heap := (Raw.TicketedLock.read s.heap s.lock).1,
                  lock := (Raw.TicketedLock.read s.heap s.lock).2.1,
                  tickets := s.tickets ++ [((Raw.TicketedLock.read s.heap s.lock).2.2, Status.pending)] }
    rw [read_eq s.heap s.lock hInv.lastRead]
    exact issue_step_inv s hInv Access.readAccess
  | issueWrite =>
    show SysInv { heap := (Raw.TicketedLock.write s.heap s.lock).1,
                  lock := (Raw.TicketedLock.write s.heap s.lock).2.1,
                  tickets := s.tickets ++ [((Raw.TicketedLock.write s.heap s.lock).2.2, Status.pending)] }
    rw [write_eq s.heap s.lock hInv.lastRead]
    exact issue_step_inv s hInv Access.writeAccess
  | dropTicket i =>
    cases hti : s.tickets[i]? with
    | none =>
      have hs : step s (Action.dropTicket i) = s := by
        dsimp only [step]
        rw [hti]
      rw [hs]
      exact hInv
    | some p =>
      obtain ⟨t, st⟩ := p
      cases st with
      | pending =>
        have hs : step s (Action.dropTicket i) =
            { heap := Ticket.drop s.heap t, lock := s.lock,
              tickets := updateAt s.tickets i (fun p => (p.1, Status.dead)) } := by
          dsimp only [step]
          rw [hti]
        rw [hs]
        exact dec_step_inv s hInv i t Status.pending hti (fun hc => by cases hc)
      | active =>
        have hs : step s (Action.dropTicket i) = s := by
          dsimp only [step]
          rw [hti]
        rw [hs]
        exact hInv
      | dead =>
        have hs : step s (Action.dropTicket i) = s := by
          dsimp only [step]
          rw [hti]
        rw [hs]
        exact hInv
  | waitTicket i =>
    cases hti : s.tickets[i]? with
    | none =>
      have hs : step s (Action.waitTicket i) = s := by
        dsimp only [step]
        rw [hti]
      rw [hs]
      exact hInv
    | some p =>
      obtain ⟨t, st⟩ := p
      cases st with
      | pending =>
        cases hchk : Ticket.check s.heap t with
        | none =>
          have hs : step s (Action.waitTicket i) = s := by
            dsimp only [step]
            rw [hti]
            dsimp only
            rw [hchk]
          rw [hs]
          exact hInv
        | some g =>
          have hs : step s (Action.waitTicket i) =
              { heap := s.heap, lock := s.lock,
                tickets := updateAt s.tickets i (fun p => (p.1, Status.active)) } := by
            dsimp only [step]
            rw [hti]
            dsimp only
            rw [hchk]
          rw [hs]
          exact wait_step_inv s hInv i t hti
      | active =>
        have hs : step s (Action.waitTicket i) = s := by
          dsimp only [step]
          rw [hti]
        rw [hs]
        exact hInv
      | dead =>
        have hs : step s (Action.waitTicket i) = s := by
          dsimp only [step]
          rw [hti]
        rw [hs]
        exact hInv
  | dropGuard i =>
    cases hti : s.tickets[i]? with
    | none =>
      have hs : step s (Action.dropGuard i) = s := by
        dsimp only [step]
        rw [hti]
      rw [hs]
      exact hInv
    | some p =>
      obtain ⟨t, st⟩ := p
      cases st with
      | pending =>
        have hs : step s (Action.dropGuard i) = s := by
          dsimp only [step]
          rw [hti]
        rw [hs]
        exact hInv
      | active =>
        have hs : step s (Action.dropGuard i) =
            { heap := LockGuard.drop s.heap { legacy := t.legacy }, lock := s.lock,
              tickets := updateAt s.tickets i (fun p => (p.1, Status.dead)) } := by
          dsimp only [step]
          rw [hti]
        rw [hs]
        exact dec_step_inv s hInv i t Status.active hti (fun hc => by cases hc)
      | dead =>
        have hs : step s (Action.dropGuard i) = s := by
          dsimp only [step]
          rw [hti]
        rw [hs]
        exact hInv

/-- The invariant holds in every state reachable by a trace. -/
theorem run_inv (tr : List Action) : SysInv (run tr) := by
  suffices hgen : ∀ s : Sys, SysInv s → SysInv (tr.foldl step s) from hgen Sys.init init_inv
  induction tr with
  | nil => intro s hs; exact hs
  | cons a rest ih =>
    intro s hs
    exact ih (step s a) (step_preserves_inv s a hs)

theorem statusRank_le_two (st : Status) : statusRank st ≤ 2 := by
  cases st <;> simp [statusRank]

/-- One Arc<Seal> drop never increases any seal count and never changes
which link a seal targets. -/
theorem decSeal_strong_mono (h : Heap) (sid j : Nat) (so so2 : Seal)
    (hso : h.seals[j]? = some so) (hso2 : (h.decSeal sid).seals[j]? = some so2) :
    so2.strong ≤ so.strong ∧ so2.link = so.link := by
  rw [decSeal_seals_getElem?] at hso2
  by_cases he : sid = j
  · rw [if_pos he, hso] at hso2
    injection hso2 with hso2
    rw [← hso2]
    exact ⟨Nat.sub_le _ _, rfl⟩
  · rw [if_neg he, hso] at hso2
    injection hso2 with hso2
    rw [← hso2]
    exact ⟨Nat.le_refl _, rfl⟩

theorem decSeals_strong_mono (ids : List Nat) : ∀ (h : Heap) (j : Nat) (so so2 : Seal),
    h.seals[j]? = some so → (h.decSeals ids).seals[j]? = some so2 →
    so2.strong ≤ so.strong ∧ so2.link = so.link := by
  induction ids with
  | nil =>
    intro h j so so2 hso hso2
    have hso2b : h.seals[j]? = some so2 := hso2
    rw [hso] at hso2b
    injection hso2b with hso2b
    rw [← hso2b]
    exact ⟨Nat.le_refl _, rfl⟩
  | cons a rest ih =>
    intro h j so so2 hso hso2
    cases hmid : (h.decSeal a).seals[j]? with
    | none =>
      exfalso
      have hlen : j < (h.decSeal a).seals.length := by
        rw [decSeal_seals_length]
        exact lt_of_getElem?_some hso
      rw [List.getElem?_eq_getElem hlen] at hmid
      cases hmid
    | some smid =>
      have h1 := decSeal_strong_mono h a j so smid hso hmid
      have h2 := ih (h.decSeal a) j smid so2 hmid hso2
      exact ⟨Nat.le_trans h2.1 h1.1, h2.2.trans h1.2⟩

/-- Dropping a legacy reference (with whatever cascade it triggers)
never increases any seal count and never retargets a seal. -/
theorem decLegacy_strong_mono (h : Heap) (lid j : Nat) (so so2 : Seal)
    (hso : h.seals[j]? = some so) (hso2 : (h.decLegacy lid).seals[j]? = some so2) :
    so2.strong ≤ so.strong ∧ so2.link = so.link := by
  cases hg : h.legacies[lid]? with
  | none =>
    have hdec : h.decLegacy lid = h := by
      unfold Heap.decLegacy
      rw [hg]
    rw [hdec, hso] at hso2
    injection hso2 with hso2
    rw [← hso2]
    exact ⟨Nat.le_refl _, rfl⟩
  | some L =>
    by_cases h1 : L.strong = 1
    · rw [decLegacy_last h lid L hg h1] at hso2
      refine decSeals_strong_mono L.seals _ j so so2 ?_ hso2
      exact hso
    · rw [decLegacy_keep h lid L hg h1] at hso2
      have hso2b : h.seals[j]? = some so2 := hso2
      rw [hso] at hso2b
      injection hso2b with hso2b
      rw [← hso2b]
      exact ⟨Nat.le_refl _, rfl⟩

/-- Across any single event, the count of a seal that already existed
can only stay or go down (and the seal keeps its link). -/
theorem step_seal_strong_mono (s : Sys) (hInv : SysInv s) (a : Action) (j : Nat) (so so2 : Seal)
    (hso : s.heap.seals[j]? = some so) (hso2 : (step s a).heap.seals[j]? = some so2) :
    so2.strong ≤ so.strong ∧ so2.link = so.link := by
  cases a with
  | issueRead =>
    have hstep : (step s Action.issueRead).heap = (Raw.TicketedLock.read s.heap s.lock).1 := rfl
    rw [hstep, read_eq s.heap s.lock hInv.lastRead] at hso2
    have hje : ¬ j = s.heap.seals.length := by
      have := lt_of_getElem?_some hso
      omega
    rw [issue_seals, getElem?_concat, if_neg hje, hso] at hso2
    injection hso2 with hso2
    rw [← hso2]
    exact ⟨Nat.le_refl _, rfl⟩
  | issueWrite =>
    have hstep : (step s Action.issueWrite).heap = (Raw.TicketedLock.write s.heap s.lock).1 := rfl
    rw [hstep, write_eq s.heap s.lock hInv.lastRead] at hso2
    have hje : ¬ j = s.heap.seals.length := by
      have := lt_of_getElem?_some hso
      omega
    rw [issue_seals, getElem?_concat, if_neg hje, hso] at hso2
    injection hso2 with hso2
    rw [← hso2]
    exact ⟨Nat.le_refl _, rfl⟩
  | dropTicket i =>
    cases hti : s.tickets[i]? with
    | none =>
      have hs : step s (Action.dropTicket i) = s := by
        dsimp only [step]
        rw [hti]
      rw [hs, hso] at hso2
      injection hso2 with hso2
      rw [← hso2]
      exact ⟨Nat.le_refl _, rfl⟩
    | some p =>
      obtain ⟨t, st⟩ := p
      cases st with
      | pending =>
        have hs : (step s (Action.dropTicket i)).heap = s.heap.decLegacy t.legacy := by
          dsimp only [step]
          rw [hti]
          rfl
        rw [hs] at hso2
        exact decLegacy_strong_mono s.heap t.legacy j so so2 hso hso2
      | active =>
        have hs : step s (Action.dropTicket i) = s := by
          dsimp only [step]
          rw [hti]
        rw [hs, hso] at hso2
        injection hso2 with hso2
        rw [← hso2]
        exact ⟨Nat.le_refl _, rfl⟩
      | dead =>
        have hs : step s (Action.dropTicket i) = s := by
          dsimp only [step]
          rw [hti]
        rw [hs, hso] at hso2
        injection hso2 with hso2
        rw [← hso2]
        exact ⟨Nat.le_refl _, rfl⟩
  | waitTicket i =>
    have hs : (step s (Action.waitTicket i)).heap = s.heap := by
      dsimp only [step]
      cases hti : s.tickets[i]? with
      | none => rfl
      | some p =>
        obtain ⟨t, st⟩ := p
        cases st with
        | pending =>
          dsimp only
          cases hchk : Ticket.check s.heap t with
          | none => rfl
          | some g => rfl
        | active => rfl
        | dead => rfl
    rw [hs, hso] at hso2
    injection hso2 with hso2
    rw [← hso2]
    exact ⟨Nat.le_refl _, rfl⟩
  | dropGuard i =>
    cases hti : s.tickets[i]? with
    | none =>
      have hs : step s (Action.dropGuard i) = s := by
        dsimp only [step]
        rw [hti]
      rw [hs, hso] at hso2
      injection hso2 with hso2
      rw [← hso2]
      exact ⟨Nat.le_refl _, rfl⟩
    | some p =>
      obtain ⟨t, st⟩ := p
      cases st with
      | pending =>
        have hs : step s (Action.dropGuard i) = s := by
          dsimp only [step]
          rw [hti]
        rw [hs, hso] at hso2
        injection hso2 with hso2
        rw [← hso2]
        exact ⟨Nat.le_refl _, rfl⟩
      | active =>
        have hs : (step s (Action.dropGuard i)).heap =
            LockGuard.drop s.heap { legacy := t.legacy } := by
          dsimp only [step]
          rw [hti]
        rw [hs] at hso2
        exact decLegacy_strong_mono s.heap t.legacy j so so2 hso hso2
      | dead =>
        have hs : step s (Action.dropGuard i) = s := by
          dsimp only [step]
          rw [hti]
        rw [hs, hso] at hso2
        injection hso2 with hso2
        rw [← hso2]
        exact ⟨Nat.le_refl _, rfl⟩

/-- C1: the claim says read() caches the ticket it creates so that an
immediately following read() takes the clone path.  The source never
stores into last_read: after a first read on a fresh lock the cache is
still none, and the second read allocates a fresh Link (id 1) instead
of cloning the first ticket's Link (id 0).  This theorem evaluates the
code at that failing input. -/
theorem c1_read_never_caches :
    readTwice1.2.1.last_read = none ∧
    readTwice2.2.1.last_read = none ∧
    readTwice2.2.2.link ≠ readTwice1.2.2.link ∧
    readTwice2.2.2.legacy ≠ readTwice1.2.2.legacy := by
  decide

/-- C9: the last-read cache is none in the initial state and stays none
after every sequence of public operations (issuing, dropping, waiting,
guard dropping, in any interleaving); consequently the cache-hit branch
of read() is unreachable and read() always allocates a fresh ordering
point (its ticket's link is the next fresh link id). -/
theorem c9_last_read_always_none (tr : List Action) :
    (run tr).lock.last_read = none ∧
    (Raw.TicketedLock.read (run tr).heap (run tr).lock).2.2.link =
      (run tr).heap.links.length := by
  have hInv := run_inv tr
  refine ⟨hInv.lastRead, ?_⟩
  rw [read_eq _ _ hInv.lastRead]
  show (Raw.TicketedLock.issue (run tr).heap (run tr).lock).2.2.1 = _
  rw [issue_ids]

/-- C2: in every reachable state of every interleaving, if ticket j's
wait can complete (its Link flag is observable true, i.e. check
succeeds), then every ticket issued before j has already reached
Released or Abandoned.  Hence non-coalesced tickets become Active
strictly in issuance order, and in particular a write ticket becomes
Active only after every earlier ticket is finished and before any later
ticket can. -/
theorem c2_activation_follows_issue_order (tr : List Action) (i j : Nat)
    (p q : Ticket × Status) (hij : i < j)
    (hpi : (run tr).tickets[i]? = some p)
    (hpj : (run tr).tickets[j]? = some q)
    (hready : (Ticket.check (run tr).heap q.1).isSome = true) :
    p.2 = Status.dead := by
  have hInv := run_inv tr
  have hjn : j < (run tr).tickets.length := lt_of_getElem?_some hpj
  have hlinkj : q.1.link = j := (hInv.tickIds j q hpj).1
  obtain ⟨lk, hlk⟩ : ∃ lk, (run tr).heap.links[j]? = some lk := by
    rw [List.getElem?_eq_getElem (by rw [hInv.linksLen]; omega : j < (run tr).heap.links.length)]
    exact ⟨_, rfl⟩
  obtain ⟨so, hso⟩ : ∃ so, (run tr).heap.seals[j]? = some so := by
    rw [List.getElem?_eq_getElem (by rw [hInv.sealsLen]; omega : j < (run tr).heap.seals.length)]
    exact ⟨_, rfl⟩
  have hrel : lk.released = true := by
    unfold Ticket.check at hready
    rw [hlinkj, hlk] at hready
    dsimp only at hready
    by_cases hr : lk.released = true
    · exact hr
    · rw [if_neg hr] at hready
      simp at hready
  have hstrong : so.strong = 0 := by
    have hx := hInv.flagStrong j lk so hlk hso
    rw [hrel] at hx
    simpa using hx.symm
  have hcnt := hInv.sealCount j so hso
  have hlivei : (run tr).heap.legacyLive i = false := by
    cases hli : (run tr).heap.legacyLive i with
    | false => rfl
    | true =>
      exfalso
      have hmemf : i ∈ (List.range j).filter (fun k => (run tr).heap.legacyLive k) :=
        List.mem_filter.mpr ⟨List.mem_range.mpr hij, hli⟩
      have := List.length_pos_of_mem hmemf
      omega
  obtain ⟨L, hL⟩ : ∃ L, (run tr).heap.legacies[i]? = some L := by
    rw [List.getElem?_eq_getElem (by rw [hInv.legsLen]; omega : i < (run tr).heap.legacies.length)]
    exact ⟨_, rfl⟩
  have hL0 : L.strong = 0 := by
    unfold Heap.legacyLive at hlivei
    rw [hL] at hlivei
    simpa using hlivei
  have hx := hInv.legStrongStatus i p L hpi hL
  by_cases hd : p.2 = Status.dead
  · exact hd
  · rw [if_neg hd] at hx
    omega

/-- Witness for C2 at a concrete interleaving: two writes are issued,
the first ticket is abandoned; the second ticket's check then succeeds
and the theorem yields that the first ticket is indeed finished. -/
theorem c2_activation_follows_issue_order_witness :
    (({ link := 0, legacy := 0, access := Access.writeAccess }, Status.dead) :
      Ticket × Status).2 = Status.dead :=
  c2_activation_follows_issue_order
    [Action.issueWrite, Action.issueWrite, Action.dropTicket 0] 0 1
    ({ link := 0, legacy := 0, access := Access.writeAccess }, Status.dead)
    ({ link := 1, legacy := 1, access := Access.writeAccess }, Status.pending)
    (by decide) (by decide) (by decide) (by decide)

/-- C3: the wait operation blocks exactly until the ticket's own Link
flag is true and then yields the guard that retains the ticket's legacy
registry (first conjunct: the flag test of the wait loop, including
which guard is produced).  Waiting consumes the ticket and the
transition is irreversible: across any event, an entry of the ticket
ledger keeps its ticket and its lifecycle stage never moves backwards
(second conjunct). -/
theorem c3_wait_blocks_until_released_and_retains_legacy :
    (∀ (h : Heap) (t : Ticket) (lk : Link), h.links[t.link]? = some lk →
      Ticket.check h t = (if lk.released then some { legacy := t.legacy } else none)) ∧
    (∀ (s : Sys) (a : Action) (i : Nat) (p q : Ticket × Status),
      s.tickets[i]? = some p → (step s a).tickets[i]? = some q →
      q.1 = p.1 ∧ statusRank p.2 ≤ statusRank q.2) := by
  constructor
  · intro h t lk hget
    unfold Ticket.check
    rw [hget]
  · intro s a i p q hp hq
    cases a with
    | issueRead =>
      have hplt : i < s.tickets.length := lt_of_getElem?_some hp
      have hq2 : (s.tickets ++
          [((Raw.TicketedLock.read s.heap s.lock).2.2, Status.pending)])[i]? = some q := hq
      rw [getElem?_concat, if_neg (by omega), hp] at hq2
      injection hq2 with hq2
      rw [← hq2]
      exact ⟨rfl, Nat.le_refl _⟩
    | issueWrite =>
      have hplt : i < s.tickets.length := lt_of_getElem?_some hp
      have hq2 : (s.tickets ++
          [((Raw.TicketedLock.write s.heap s.lock).2.2, Status.pending)])[i]? = some q := hq
      rw [getElem?_concat, if_neg (by omega), hp] at hq2
      injection hq2 with hq2
      rw [← hq2]
      exact ⟨rfl, Nat.le_refl _⟩
    | dropTicket i0 =>
      cases hti : s.tickets[i0]? with
      | none =>
        have hs : step s (Action.dropTicket i0) = s := by
          dsimp only [step]
          rw [hti]
        rw [hs, hp] at hq
        injection hq with hq
        rw [← hq]
        exact ⟨rfl, Nat.le_refl _⟩
      | some pr =>
        obtain ⟨t, st⟩ := pr
        cases st with
        | pending =>
          have hs : (step s (Action.dropTicket i0)).tickets =
              updateAt s.tickets i0 (fun p => (p.1, Status.dead)) := by
            dsimp only [step]
            rw [hti]
          rw [hs, getElem?_updateAt] at hq
          by_cases hii : i0 = i
          · rw [if_pos hii, hp] at hq
            injection hq with hq
            rw [← hq]
            exact ⟨rfl, statusRank_le_two p.2⟩
          · rw [if_neg hii, hp] at hq
            injection hq with hq
            rw [← hq]
            exact ⟨rfl, Nat.le_refl _⟩
        | active =>
          have hs : step s (Action.dropTicket i0) = s := by
            dsimp only [step]
            rw [hti]
          rw [hs, hp] at hq
          injection hq with hq
          rw [← hq]
          exact ⟨rfl, Nat.le_refl _⟩
        | dead =>
          have hs : step s (Action.dropTicket i0) = s := by
            dsimp only [step]
            rw [hti]
          rw [hs, hp] at hq
          injection hq with hq
          rw [← hq]
          exact ⟨rfl, Nat.le_refl _⟩
    | waitTicket i0 =>
      cases hti : s.tickets[i0]? with
      | none =>
        have hs : step s (Action.waitTicket i0) = s := by
          dsimp only [step]
          rw [hti]
        rw [hs, hp] at hq
        injection hq with hq
        rw [← hq]
        exact ⟨rfl, Nat.le_refl _⟩
      | some pr =>
        obtain ⟨t, st⟩ := pr
        cases st with
        | pending =>
          cases hchk : Ticket.check s.heap t with
          | none =>
            have hs : step s (Action.waitTicket i0) = s := by
              dsimp only [step]
              rw [hti]
              dsimp only
              rw [hchk]
            rw [hs, hp] at hq
            injection hq with hq
            rw [← hq]
            exact ⟨rfl, Nat.le_refl _⟩
          | some g =>
            have hs : (step s (Action.waitTicket i0)).tickets =
                updateAt s.tickets i0 (fun p => (p.1, Status.active)) := by
              dsimp only [step]
              rw [hti]
              dsimp only
              rw [hchk]
            rw [hs, getElem?_updateAt] at hq
            by_cases hii : i0 = i
            · rw [if_pos hii, hp] at hq
              injection hq with hq
              have hpp : p = (t, Status.pending) := by
                have hx := hp
                rw [← hii, hti] at hx
                injection hx with hx
                exact hx.symm
              rw [← hq, hpp]
              exact ⟨rfl, Nat.zero_le _⟩
            · rw [if_neg hii, hp] at hq
              injection hq with hq
              rw [← hq]
              exact ⟨rfl, Nat.le_refl _⟩
        | active =>
          have hs : step s (Action.waitTicket i0) = s := by
            dsimp only [step]
            rw [hti]
          rw [hs, hp] at hq
          injection hq with hq
          rw [← hq]
          exact ⟨rfl, Nat.le_refl _⟩
        | dead =>
          have hs : step s (Action.waitTicket i0) = s := by
            dsimp only [step]
            rw [hti]
          rw [hs, hp] at hq
          injection hq with hq
          rw [← hq]
          exact ⟨rfl, Nat.le_refl _⟩
    | dropGuard i0 =>
      cases hti : s.tickets[i0]? with
      | none =>
        have hs : step s (Action.dropGuard i0) = s := by
          dsimp only [step]
          rw [hti]
        rw [hs, hp] at hq
        injection hq with hq
        rw [← hq]
        exact ⟨rfl, Nat.le_refl _⟩
      | some pr =>
        obtain ⟨t, st⟩ := pr
        cases st with
        | pending =>
          have hs : step s (Action.dropGuard i0) = s := by
            dsimp only [step]
            rw [hti]
          rw [hs, hp] at hq
          injection hq with hq
          rw [← hq]
          exact ⟨rfl, Nat.le_refl _⟩
        | active =>
          have hs : (step s (Action.dropGuard i0)).tickets =
              updateAt s.tickets i0 (fun p => (p.1, Status.dead)) := by
            dsimp only [step]
            rw [hti]
          rw [hs, getElem?_updateAt] at hq
          by_cases hii : i0 = i
          · rw [if_pos hii, hp] at hq
            injection hq with hq
            rw [← hq]
            exact ⟨rfl, statusRank_le_two p.2⟩
          · rw [if_neg hii, hp] at hq
            injection hq with hq
            rw [← hq]
            exact ⟨rfl, Nat.le_refl _⟩
        | dead =>
          have hs : step s (Action.dropGuard i0) = s := by
            dsimp only [step]
            rw [hti]
          rw [hs, hp] at hq
          injection hq with hq
          rw [← hq]
          exact ⟨rfl, Nat.le_refl _⟩

/-- Witness for C3: on the heap after one write the ticket's link is
already released, so check yields the guard carrying legacy 0; and one
concrete step (abandoning ticket 0 of a one-ticket ledger) keeps the
ticket and moves its stage forward. -/
theorem c3_wait_blocks_until_released_and_retains_legacy_witness :
    Ticket.check writeOnce.1 writeOnce.2.2 =
      (if ({ released := true, index := 1 } : Link).released
       then some { legacy := writeOnce.2.2.legacy } else none) ∧
    (({ link := 0, legacy := 0, access := Access.writeAccess }, Status.dead) :
        Ticket × Status).1 =
      ({ link := 0, legacy := 0, access := Access.writeAccess }, Status.pending).1 ∧
    statusRank Status.pending ≤ statusRank Status.dead := by
  refine ⟨?_, ?_⟩
  · exact c3_wait_blocks_until_released_and_retains_legacy.1 writeOnce.1 writeOnce.2.2
      { released := true, index := 1 } (by decide)
  · exact c3_wait_blocks_until_released_and_retains_legacy.2
      (run [Action.issueWrite]) (Action.dropTicket 0) 0
      ({ link := 0, legacy := 0, access := Access.writeAccess }, Status.pending)
      ({ link := 0, legacy := 0, access := Access.writeAccess }, Status.dead)
      (by decide) (by decide)

/-- C4: in every reachable state a Link's flag equals (seal count = 0),
seal counts never increase across an event, and therefore the flag is
monotone (never reset) and flips false-to-true exactly when the unique
Seal's reference count reaches zero, i.e. the Seal's destruction is the
only event that flips the flag.  The flag starts false at allocation
(Mutex::new(false) in issue). -/
theorem c4_flag_flips_only_when_seal_dies (tr : List Action) (a : Action) (j : Nat)
    (lk lk2 : Link) (so so2 : Seal)
    (hlk : (run tr).heap.links[j]? = some lk)
    (hso : (run tr).heap.seals[j]? = some so)
    (hlk2 : (step (run tr) a).heap.links[j]? = some lk2)
    (hso2 : (step (run tr) a).heap.seals[j]? = some so2) :
    lk.released = (so.strong == 0) ∧
    lk2.released = (so2.strong == 0) ∧
    so2.strong ≤ so.strong ∧
    (lk.released = true → lk2.released = true) ∧
    ((lk.released = false ∧ lk2.released = true) ↔ (so.strong ≠ 0 ∧ so2.strong = 0)) := by
  have hInv := run_inv tr
  have hInv2 := step_preserves_inv (run tr) a hInv
  have h1 := hInv.flagStrong j lk so hlk hso
  have h2 := hInv2.flagStrong j lk2 so2 hlk2 hso2
  have h3 := (step_seal_strong_mono (run tr) hInv a j so so2 hso hso2).1
  refine ⟨h1, h2, h3, ?_, ?_⟩
  · intro hr
    rw [hr] at h1
    have hs0 : so.strong = 0 := by simpa using h1.symm
    have hs20 : so2.strong = 0 := by omega
    rw [h2, hs20]
    rfl
  · constructor
    · rintro ⟨ha, hb⟩
      rw [ha] at h1
      rw [hb] at h2
      constructor
      · intro hc
        rw [hc] at h1
        exact absurd h1.symm (by simp)
      · simpa using h2.symm
    · rintro ⟨ha, hb⟩
      constructor
      · rw [h1]
        cases hsx : so.strong with
        | zero => exact absurd hsx ha
        | succ m => rfl
      · rw [h2, hb]
        rfl

/-- Witness for C4: issue two writes, then abandon ticket 0.  Seal 1
goes from count 1 to count 0 in that step and link 1 flips from false
to true. -/
theorem c4_flag_flips_only_when_seal_dies_witness :
    ({ released := false, index := 2 } : Link).released = ((1 : Nat) == 0) ∧
    ({ released := true, index := 2 } : Link).released = ((0 : Nat) == 0) ∧
    (0 : Nat) ≤ 1 ∧
    (({ released := false, index := 2 } : Link).released = true →
      ({ released := true, index := 2 } : Link).released = true) ∧
    ((({ released := false, index := 2 } : Link).released = false ∧
        ({ released := true, index := 2 } : Link).released = true) ↔
      ((1 : Nat) ≠ 0 ∧ (0 : Nat) = 0)) :=
  c4_flag_flips_only_when_seal_dies
    [Action.issueWrite, Action.issueWrite] (Action.dropTicket 0) 1
    { released := false, index := 2 } { released := true, index := 2 }
    { link := 1, strong := 1 } { link := 1, strong := 0 }
    (by decide) (by decide) (by decide) (by decide)

/-- C5: on any lock state with an empty read cache and a duplicate-free
weak list, write() clears the cache, returns the ticket owning the
fresh Link and fresh empty Legacy registry (strong count 1), allocates
the new Seal whose remaining count equals the number of live
predecessor registries, pushes one clone of that Seal onto the end of
every live predecessor registry, and replaces the weak list by its
live entries followed by the weak reference to the new registry
(pruning every dead entry).  write is a total function: there is no
error path. -/
theorem c5_write_clears_allocates_distributes_prunes (h : Heap) (l : Raw.TicketedLock)
    (hlr : l.last_read = none) (hnd : l.legacies.Nodup) :
    (Raw.TicketedLock.write h l).2.1.last_read = none ∧
    (Raw.TicketedLock.write h l).2.2 =
      { link := h.links.length, legacy := h.legacies.length, access := Access.writeAccess } ∧
    (Raw.TicketedLock.write h l).1.links[h.links.length]? =
      some { released := decide (liveCount h l = 0), index := l.next_index + 1 } ∧
    (Raw.TicketedLock.write h l).1.seals[h.seals.length]? =
      some { link := h.links.length, strong := liveCount h l } ∧
    (Raw.TicketedLock.write h l).1.legacies[h.legacies.length]? =
      some { seals := [], strong := 1 } ∧
    (Raw.TicketedLock.write h l).2.1.legacies =
      l.legacies.filter (fun id => h.legacyLive id) ++ [h.legacies.length] ∧
    (∀ id L, id ∈ l.legacies → h.legacies[id]? = some L → L.strong ≠ 0 →
      (Raw.TicketedLock.write h l).1.legacies[id]? =
        some { L with seals := L.seals ++ [h.seals.length] }) := by
  rw [write_eq h l hlr]
  refine ⟨?_, ?_, ?_, ?_, ?_, ?_, ?_⟩
  · rw [issue_lock]
    exact hlr
  · rw [issue_ids]
  · rw [issue_links, List.getElem?_concat_length]
  · rw [issue_seals, List.getElem?_concat_length]
  · rw [issue_legacies_getElem? h l hnd, if_pos rfl]
  · rw [issue_lock]
  · intro id L hmem hL hstrong
    rw [issue_legacies_getElem? h l hnd id]
    have hlt : id < h.legacies.length := lt_of_getElem?_some hL
    have hlive : h.legacyLive id = true := by
      unfold Heap.legacyLive
      rw [hL]
      simp [hstrong]
    rw [if_neg (by omega), if_pos ⟨hmem, hlive⟩, hL]
    rfl

/-- Witness for C5 in a state with one live predecessor: a second write
after writeOnce distributes seal 1 into registry 0 and prunes nothing. -/
theorem c5_write_clears_allocates_distributes_prunes_witness :
    (Raw.TicketedLock.write writeOnce.1 writeOnce.2.1).2.1.last_read = none ∧
    (Raw.TicketedLock.write writeOnce.1 writeOnce.2.1).1.legacies[0]? =
      some { seals := [1], strong := 1 } := by
  have hx := c5_write_clears_allocates_distributes_prunes writeOnce.1 writeOnce.2.1
    (by decide) (by decide)
  refine ⟨hx.1, ?_⟩
  have hy := hx.2.2.2.2.2.2 0 { seals := [], strong := 1 } (by decide) (by decide) (by decide)
  exact hy.trans (by decide)

/-- C6 counterexample: the claim asserts the weak registry list is
empty after the N-th issuance of an issue-then-drop loop.  Already for
N = 1 the list still holds the (now dead) weak entry of the dropped
ticket: the code prunes lazily at the next issuance, never eagerly. -/
theorem c6_counterexample : ¬ (issueDropCycles 1).2.legacies = [] := by
  decide

/-- One issue-and-drop cycle from a state whose weak entries are all
dead: the write prunes every old entry and registers the new registry,
whose only strong owner (the ticket) is dropped at once. -/
theorem issueDropCycle_spec (p : Heap × Raw.TicketedLock)
    (hdead : ∀ id ∈ p.2.legacies, p.1.legacyLive id = false)
    (hlr : p.2.last_read = none) (hnd : p.2.legacies.Nodup) :
    (issueDropCycle p).2.legacies = [p.1.legacies.length] ∧
    (∀ id ∈ (issueDropCycle p).2.legacies, (issueDropCycle p).1.legacyLive id = false) ∧
    (issueDropCycle p).2.last_read = none ∧
    (issueDropCycle p).2.legacies.Nodup := by
  obtain ⟨h, l⟩ := p
  have hfilter : l.legacies.filter (fun id => h.legacyLive id) = [] :=
    List.filter_eq_nil_iff.mpr (fun a ha => by simp [hdead a ha])
  have hlockpart : (issueDropCycle (h, l)).2 = (Raw.TicketedLock.issue h l).2.1 := by
    show (Raw.TicketedLock.write h l).2.1 = _
    rw [write_eq h l hlr]
  have hlock : (issueDropCycle (h, l)).2 =
      { next_index := l.next_index + 1, legacies := [h.legacies.length],
        last_read := none } := by
    rw [hlockpart, issue_lock, hfilter, hlr]
    rfl
  have hL : (Raw.TicketedLock.issue h l).1.legacies[h.legacies.length]? =
      some { seals := [], strong := 1 } := by
    rw [issue_legacies_getElem? h l hnd, if_pos rfl]
  have hdrop : (issueDropCycle (h, l)).1 =
      ((Raw.TicketedLock.issue h l).1).decLegacy h.legacies.length := by
    show Ticket.drop (Raw.TicketedLock.write h l).1 (Raw.TicketedLock.write h l).2.2 = _
    rw [write_eq h l hlr]
    unfold Ticket.drop
    show (Raw.TicketedLock.issue h l).1.decLegacy (Raw.TicketedLock.issue h l).2.2.2 = _
    rw [issue_ids]
  have hheap : (issueDropCycle (h, l)).1 =
      { (Raw.TicketedLock.issue h l).1 with
        legacies := updateAt (Raw.TicketedLock.issue h l).1.legacies h.legacies.length
          (fun x => { x with strong := x.strong - 1 }) } := by
    rw [hdrop, decLegacy_last _ _ _ hL rfl]
    rfl
  refine ⟨by rw [hlock], ?_, by rw [hlock], by rw [hlock]; exact List.nodup_singleton _⟩
  intro id hm
  rw [hlock] at hm
  rw [List.mem_singleton] at hm
  subst hm
  unfold Heap.legacyLive
  rw [hheap]
  show (match (updateAt (Raw.TicketedLock.issue h l).1.legacies h.legacies.length
      (fun x => { x with strong := x.strong - 1 }))[h.legacies.length]? with
    | some L => decide (L.strong ≠ 0)
    | none => false) = false
  rw [getElem?_updateAt, if_pos rfl, hL]
  rfl

/-- C6 amended: after N issue-and-immediately-drop cycles the weak list
is not empty, but it contains no live entry: it is at most the single
stale weak reference of the most recent registry, which is already
dead (and is pruned at the next issuance).  The amendment is forced by
the counterexample: pruning is lazy, so one dead entry lingers. -/
theorem c6_amended_no_live_entries (n : Nat) :
    (∀ id ∈ (issueDropCycles n).2.legacies,
      (issueDropCycles n).1.legacyLive id = false) ∧
    (issueDropCycles n).2.legacies.length ≤ 1 := by
  suffices hstrong :
      (∀ id ∈ (issueDropCycles n).2.legacies,
        (issueDropCycles n).1.legacyLive id = false) ∧
      (issueDropCycles n).2.last_read = none ∧
      (issueDropCycles n).2.legacies.length ≤ 1 ∧
      (issueDropCycles n).2.legacies.Nodup from
    ⟨hstrong.1, hstrong.2.2.1⟩
  induction n with
  | zero =>
    refine ⟨?_, rfl, by decide, List.nodup_nil⟩
    intro id hm
    cases hm
  | succ m ih =>
    obtain ⟨hdead, hlr, hlen, hnd⟩ := ih
    have hx := issueDropCycle_spec (issueDropCycles m) hdead hlr hnd
    refine ⟨hx.2.1, hx.2.2.1, ?_, hx.2.2.2⟩
    show (issueDropCycle (issueDropCycles m)).2.legacies.length ≤ 1
    rw [hx.1]
    simp

/-- Witness for C6 amended: after two cycles the stale entry is id 1
and it is dead; the list has one element. -/
theorem c6_amended_no_live_entries_witness :
    (issueDropCycles 2).1.legacyLive 1 = false ∧
    (issueDropCycles 2).2.legacies.length ≤ 1 :=
  ⟨(c6_amended_no_live_entries 2).1 1 (by decide), (c6_amended_no_live_entries 2).2⟩

/-- C7: the claim says drain/flush blocks until no ticket remains
outstanding and the weak list is empty.  The body of flush is a TODO:
it returns its state unchanged.  Evaluated at a state with one
outstanding write ticket, flush returns immediately while the weak
list still holds a live registry. -/
theorem c7_flush_is_noop_with_outstanding_ticket :
    Raw.TicketedLock.flush writeOnce.1 writeOnce.2.1 = (writeOnce.1, writeOnce.2.1) ∧
    (Raw.TicketedLock.flush writeOnce.1 writeOnce.2.1).2.legacies = [0] ∧
    (Raw.TicketedLock.flush writeOnce.1 writeOnce.2.1).1.legacyLive 0 = true := by
  exact ⟨rfl, by decide, by decide⟩

/-- C8: unlock runs flush (a no-op) and then Arc::try_unwrap on the
payload.  Extraction succeeds exactly when the lock's own reference is
the only strong reference left; any outstanding ticket or guard holds
a clone of the payload Arc (read and write each add one), and in that
case unlock takes the panic branch rather than returning an error
value. -/
theorem c8_unlock_panics_iff_references_remain (α : Type) (h : Heap)
    (lk : Lib.TicketedLock α) :
    (lk.dataStrong = 1 →
      Lib.TicketedLock.unlock h lk = Lib.UnlockResult.ok lk.data) ∧
    (lk.dataStrong ≠ 1 →
      Lib.TicketedLock.unlock h lk = Lib.UnlockResult.panicked) ∧
    (∀ a : α, Lib.TicketedLock.unlock h lk = Lib.UnlockResult.ok a →
      lk.dataStrong = 1 ∧ a = lk.data) ∧
    (Lib.TicketedLock.read h lk).2.1.dataStrong = lk.dataStrong + 1 ∧
    (Lib.TicketedLock.write h lk).2.1.dataStrong = lk.dataStrong + 1 := by
  refine ⟨?_, ?_, ?_, rfl, rfl⟩
  · intro h1
    unfold Lib.TicketedLock.unlock
    rw [if_pos h1]
  · intro h1
    unfold Lib.TicketedLock.unlock
    rw [if_neg h1]
  · intro a ha
    unfold Lib.TicketedLock.unlock at ha
    by_cases h1 : lk.dataStrong = 1
    · rw [if_pos h1] at ha
      injection ha with ha
      exact ⟨h1, ha.symm⟩
    · rw [if_neg h1] at ha
      cases ha

/-- Witness for C8: with one outstanding read ticket the payload Arc
has two owners and unlock panics; on the fresh lock it extracts the
payload. -/
theorem c8_unlock_panics_iff_references_remain_witness :
    Lib.TicketedLock.unlock Heap.empty
      ((Lib.TicketedLock.read Heap.empty (Lib.TicketedLock.new 5)).2.1) =
        Lib.UnlockResult.panicked ∧
    Lib.TicketedLock.unlock Heap.empty (Lib.TicketedLock.new 5) =
      Lib.UnlockResult.ok 5 := by
  constructor
  · exact (c8_unlock_panics_iff_references_remain Nat Heap.empty _).2.1 (by decide)
  · exact (c8_unlock_panics_iff_references_remain Nat Heap.empty _).1 (by decide)

/-- C10: when no predecessor registry is live at issuance (in
particular for the first ticket ever, or after all earlier registries
were dropped), the new Seal's only remaining reference is the issuing
routine's local one, dropped before issue returns: the returned
ticket's Link flag is already true, its Seal count is 0, and waiting
on it returns the guard without blocking.  This holds for write and
for read alike. -/
theorem c10_ticket_without_predecessors_is_born_released (h : Heap) (l : Raw.TicketedLock)
    (hlr : l.last_read = none)
    (hdead : ∀ id ∈ l.legacies, ¬ h.legacyLive id = true) :
    (Raw.TicketedLock.write h l).1.links[(Raw.TicketedLock.write h l).2.2.link]? =
      some { released := true, index := l.next_index + 1 } ∧
    Ticket.check (Raw.TicketedLock.write h l).1 (Raw.TicketedLock.write h l).2.2 =
      some { legacy := (Raw.TicketedLock.write h l).2.2.legacy } ∧
    (Raw.TicketedLock.write h l).1.seals[h.seals.length]? =
      some { link := (Raw.TicketedLock.write h l).2.2.link, strong := 0 } ∧
    Ticket.check (Raw.TicketedLock.read h l).1 (Raw.TicketedLock.read h l).2.2 =
      some { legacy := (Raw.TicketedLock.read h l).2.2.legacy } := by
  have hc : liveCount h l = 0 := by
    unfold liveCount
    rw [List.filter_eq_nil_iff.mpr (fun a ha => by simp [hdead a ha])]
    rfl
  have hrel : (Raw.TicketedLock.issue h l).1.links[h.links.length]? =
      some { released := true, index := l.next_index + 1 } := by
    rw [issue_links, List.getElem?_concat_length, hc]
    rfl
  have hlink : (Raw.TicketedLock.issue h l).2.2.1 = h.links.length := by
    rw [issue_ids]
  refine ⟨?_, ?_, ?_, ?_⟩
  · rw [write_eq h l hlr]
    show (Raw.TicketedLock.issue h l).1.links[(Raw.TicketedLock.issue h l).2.2.1]? = _
    rw [hlink]
    exact hrel
  · rw [write_eq h l hlr]
    have hgoal : Ticket.check (Raw.TicketedLock.issue h l).1
        { link := (Raw.TicketedLock.issue h l).2.2.1,
          legacy := (Raw.TicketedLock.issue h l).2.2.2,
          access := Access.writeAccess } =
        some { legacy := (Raw.TicketedLock.issue h l).2.2.2 } := by
      unfold Ticket.check
      show (match (Raw.TicketedLock.issue h l).1.links[(Raw.TicketedLock.issue h l).2.2.1]? with
        | some lk =>
          if lk.released = true
          then some ({ legacy := (Raw.TicketedLock.issue h l).2.2.2 } : LockGuard)
          else none
        | none => none) = _
      rw [hlink, hrel]
      rfl
    exact hgoal
  · rw [write_eq h l hlr]
    have hgoal : (Raw.TicketedLock.issue h l).1.seals[h.seals.length]? =
        some { link := (Raw.TicketedLock.issue h l).2.2.1, strong := 0 } := by
      rw [issue_seals, List.getElem?_concat_length, hc, hlink]
    exact hgoal
  · rw [read_eq h l hlr]
    have hgoal : Ticket.check (Raw.TicketedLock.issue h l).1
        { link := (Raw.TicketedLock.issue h l).2.2.1,
          legacy := (Raw.TicketedLock.issue h l).2.2.2,
          access := Access.readAccess } =
        some { legacy := (Raw.TicketedLock.issue h l).2.2.2 } := by
      unfold Ticket.check
      show (match (Raw.TicketedLock.issue h l).1.links[(Raw.TicketedLock.issue h l).2.2.1]? with
        | some lk =>
          if lk.released = true
          then some ({ legacy := (Raw.TicketedLock.issue h l).2.2.2 } : LockGuard)
          else none
        | none => none) = _
      rw [hlink, hrel]
      rfl
    exact hgoal

/-- Witness for C10: the very first write ticket of a fresh lock can be
waited on immediately. -/
theorem c10_ticket_without_predecessors_is_born_released_witness :
    Ticket.check (Raw.TicketedLock.write Heap.empty Raw.TicketedLock.new).1
      (Raw.TicketedLock.write Heap.empty Raw.TicketedLock.new).2.2 =
      some { legacy := 0 } := by
  have hx := c10_ticket_without_predecessors_is_born_released Heap.empty
    Raw.TicketedLock.new rfl (fun id hm => by cases hm)
  exact hx.2.1.trans (by decide)

end TicketLock
